import Mathlib

/-!
# Verification of the tinyBLAS CPU matrix-multiplication core (sgemm.cpp)

A shallow embedding of `src/ggml/src/ggml-cpu/llamafile/sgemm.cpp` and proofs of
the specification claims about it.

Modelling conventions:

* All `int64_t` / `int` quantities in the source are modelled as `ℕ`.  Every
  quantity we embed is non-negative on every reachable execution (the entry
  point asserts `m, n, k ≥ 0`, `nth > 0`, and all derived quantities stay
  non-negative there); where a subtraction occurs in the source, the
  surrounding theorems carry (or prove) the hypotheses under which the C++
  value is non-negative, so truncated `ℕ` subtraction agrees with `int64_t`.
* SIMD vectors of bytes (`__m128i`, `__m256i`) are modelled as `Fin 16 → ℕ`
  and `Fin 32 → ℕ`, each lane holding the unsigned byte value (`< 256` where a
  theorem needs it, stated as a hypothesis).
* IEEE float values are never interpreted: `f32` values are carried as an
  abstract type with abstract (deterministic) operations.  Equality of the
  abstract results for *every* interpretation of the operations captures
  bit-identity of the concrete computation.
* The compile-time configuration modelled for the dispatcher is the x86
  `__AVX2__ + __F16C__ + __FMA__` target of the source (16 vector registers,
  `KN = 8`, no VNNI); the kernel-level definitions keep `VECTOR_REGISTERS`
  (`regs32`), `KN`, tile shapes etc. as parameters so that both compiled
  variants of each table are covered.
-/

namespace Sgemm

/-! ## Floating-point tile engine: tile selection (sgemm.cpp lines 321-379) -/

/-- `BLOCK_SIZE<M>(m)` (sgemm.cpp line 321): the balanced block size
`ceil(m / ceil(m/M))` computed exactly as in the source. -/
def fpBLOCK_SIZE (M m : ℕ) : ℕ :=
  let NB_BLOC_M := (m + M - 1) / M
  if m % NB_BLOC_M = 0 then m / NB_BLOC_M else m / NB_BLOC_M + 1

/-- `BLOC_POS(ib, ibN, bloc_size)` (sgemm.cpp line 327): start position of
block `ib` when the first `ibN` blocks have size `bloc_size` and the rest
`bloc_size - 1`. -/
def fpBLOC_POS (ib ibN bloc_size : ℕ) : ℕ :=
  if ib < ibN then ib * bloc_size else ibN * bloc_size + (ib - ibN) * (bloc_size - 1)

/-- The `(RM, RN, BM)` row selected by `tinyBLAS::matmul` (sgemm.cpp lines
345-377), with the stripe heuristic `BN`; `regs32` is the compile-time
`VECTOR_REGISTERS == 32` flag.  `none` models falling through to
`return false`. -/
def matmulSelect (regs32 : Bool) (m nth : ℕ) : Option (ℕ × ℕ × ℕ × ℕ) :=
  if regs32 then
    if m % 16 = 0 ∧ m / 16 ≥ nth then some (4, 6, 4, 12)
    else if m % 8 = 0 then some (4, 6, 2, 12)
    else if m % 4 = 0 then some (4, 6, 1, 12)
    else none
  else
    if m % 16 = 0 ∧ m / 16 ≥ nth then some (4, 3, 4, 24)
    else if m % 8 = 0 then some (4, 3, 2, 24)
    else if m % 4 = 0 then some (4, 3, 1, 24)
    else none

/-- Return value of `tinyBLAS::matmul(m, n)` (sgemm.cpp lines 341-379):
`false` if `k % KN ≠ 0`, otherwise `true` exactly when one of the six
tile-selection rows matches. -/
def matmulReturns (regs32 : Bool) (k KN m nth : ℕ) : Bool :=
  if k % KN ≠ 0 then false
  else (matmulSelect regs32 m nth).isSome

/-! ## Column-stripe arithmetic of `tinyBLAS::gemm` (sgemm.cpp lines 429-448) -/

/-- `NB_BN` (sgemm.cpp line 437): number of column stripes, `xtiles` "rounded"
to the nearest multiple-of-`BN` count. -/
def gemmNB_BN (BN xtiles : ℕ) : ℕ :=
  if xtiles < BN then 1 else (xtiles + BN / 2) / BN

/-- `SIZE_BN` (sgemm.cpp line 438): width (in tiles) of the first stripes,
`ceil(xtiles / NB_BN)` computed exactly as in the source. -/
def gemmSIZE_BN (NB_BN xtiles : ℕ) : ℕ :=
  if xtiles % NB_BN = 0 then xtiles / NB_BN else xtiles / NB_BN + 1

/-- `jj_BN` (sgemm.cpp line 439): the number of stripes of full width
`SIZE_BN`; the remaining stripes have width `SIZE_BN - 1`. -/
def gemmJJ_BN (NB_BN SIZE_BN xtiles : ℕ) : ℕ :=
  NB_BN - (NB_BN * SIZE_BN - xtiles)

/-! ## C8: the stripe widths exactly tile the column-tile range -/

theorem gemmNB_BN_pos (BN xtiles : ℕ) (hx : 1 ≤ xtiles) (hb : 1 ≤ BN) :
    1 ≤ gemmNB_BN BN xtiles := by
  unfold gemmNB_BN
  split
  · exact le_refl 1
  · rename_i h
    push_neg at h
    have h2 : BN ≤ xtiles + BN / 2 := le_trans h (Nat.le_add_right _ _)
    exact (Nat.one_le_div_iff (Nat.lt_of_lt_of_le Nat.zero_lt_one hb)).mpr h2

theorem gemmSIZE_BN_mul_ge (NB_BN xtiles : ℕ) (h : 1 ≤ NB_BN) :
    xtiles ≤ NB_BN * gemmSIZE_BN NB_BN xtiles := by
  unfold gemmSIZE_BN
  have hdm := Nat.div_add_mod xtiles NB_BN
  have hlt : xtiles % NB_BN < NB_BN := Nat.mod_lt _ h
  split
  · exact le_of_eq (Nat.mul_div_cancel' (Nat.dvd_of_mod_eq_zero (by assumption))).symm
  · rw [Nat.mul_add, Nat.mul_one]
    calc xtiles = NB_BN * (xtiles / NB_BN) + xtiles % NB_BN := hdm.symm
    _ ≤ NB_BN * (xtiles / NB_BN) + NB_BN := Nat.add_le_add_left (le_of_lt hlt) _

theorem gemmSIZE_BN_pred_mul_lt (NB_BN xtiles : ℕ) (hx : 1 ≤ xtiles) (h : 1 ≤ NB_BN) :
    NB_BN * (gemmSIZE_BN NB_BN xtiles - 1) < xtiles := by
  unfold gemmSIZE_BN
  have hdm := Nat.div_add_mod xtiles NB_BN
  split
  · rename_i hmod
    have hdvd : NB_BN * (xtiles / NB_BN) = xtiles :=
      Nat.mul_div_cancel' (Nat.dvd_of_mod_eq_zero hmod)
    rw [Nat.mul_sub, Nat.mul_one, hdvd]
    omega
  · rename_i hmod
    simp only [Nat.add_sub_cancel]
    calc NB_BN * (xtiles / NB_BN)
        < NB_BN * (xtiles / NB_BN) + xtiles % NB_BN :=
          Nat.lt_add_of_pos_right (Nat.pos_of_ne_zero hmod)
    _ = xtiles := hdm

/-- The stripe widths exactly tile the column-tile range, stated with local
abbreviations. -/
theorem gemm_stripe_tiling (xtiles BN : ℕ)
    (hx : 1 ≤ xtiles) (hb : 1 ≤ BN) :
    let NB_BN := gemmNB_BN BN xtiles
    let SIZE_BN := gemmSIZE_BN NB_BN xtiles
    let jj_BN := gemmJJ_BN NB_BN SIZE_BN xtiles
    jj_BN * SIZE_BN + (NB_BN - jj_BN) * (SIZE_BN - 1) = xtiles := by
  intro NB_BN SIZE_BN jj_BN
  have h1 : 1 ≤ NB_BN := gemmNB_BN_pos BN xtiles hx hb
  have h2 : xtiles ≤ NB_BN * SIZE_BN := gemmSIZE_BN_mul_ge NB_BN xtiles h1
  have h3 : NB_BN * (SIZE_BN - 1) < xtiles := gemmSIZE_BN_pred_mul_lt NB_BN xtiles hx h1
  have hS : 1 ≤ SIZE_BN := by
    rcases Nat.eq_zero_or_pos SIZE_BN with h0 | h1'
    · rw [h0] at h2; omega
    · exact h1'
  have hmulsub : NB_BN * SIZE_BN - NB_BN = NB_BN * (SIZE_BN - 1) := by
    rw [Nat.mul_sub, Nat.mul_one]
  have hle : NB_BN * SIZE_BN - xtiles ≤ NB_BN := by omega
  have hjj : jj_BN = NB_BN - (NB_BN * SIZE_BN - xtiles) := rfl
  rw [hjj]
  zify [hle, Nat.sub_le NB_BN (NB_BN * SIZE_BN - xtiles), h2, hS]
  ring

/-- C8: with `NB_BN`, `SIZE_BN`, `jj_BN` as computed by `tinyBLAS::gemm`,
the stripe widths exactly tile the column-tile range:
`jj_BN·SIZE_BN + (NB_BN − jj_BN)·(SIZE_BN − 1) = xtiles`, so the assertion
checked by thread 0 (sgemm.cpp line 443) never fires. -/
theorem gemm_stripe_widths_tile_xtiles (xtiles BN : ℕ)
    (hx : 1 ≤ xtiles) (hb : 1 ≤ BN) :
    gemmJJ_BN (gemmNB_BN BN xtiles)
        (gemmSIZE_BN (gemmNB_BN BN xtiles) xtiles) xtiles *
      gemmSIZE_BN (gemmNB_BN BN xtiles) xtiles +
      (gemmNB_BN BN xtiles -
        gemmJJ_BN (gemmNB_BN BN xtiles)
          (gemmSIZE_BN (gemmNB_BN BN xtiles) xtiles) xtiles) *
        (gemmSIZE_BN (gemmNB_BN BN xtiles) xtiles - 1) = xtiles :=
  gemm_stripe_tiling xtiles BN hx hb

/-- Witness for C8 at `xtiles = 25`, `BN = 12`. -/
theorem gemm_stripe_widths_tile_xtiles_witness :
    (1 ≤ 25 ∧ 1 ≤ 12) ∧
      (let NB_BN := gemmNB_BN 12 25
       let SIZE_BN := gemmSIZE_BN NB_BN 25
       let jj_BN := gemmJJ_BN NB_BN SIZE_BN 25
       jj_BN * SIZE_BN + (NB_BN - jj_BN) * (SIZE_BN - 1) = 25) :=
  ⟨⟨by decide, by decide⟩, gemm_stripe_widths_tile_xtiles 25 12 (by decide) (by decide)⟩

/-! ## C3: return value of the floating-point `matmul` -/

/-- C3: `tinyBLAS::matmul(m, n)` returns `false` when `k % KN ≠ 0`, and
otherwise returns `true` exactly when one of the six tile-selection rows
matches, which happens exactly when `m` is divisible by 4. -/
theorem matmul_returns_iff (regs32 : Bool) (k KN m nth : ℕ) :
    matmulReturns regs32 k KN m nth = (decide (k % KN = 0) && decide (m % 4 = 0)) := by
  have hsel : (matmulSelect regs32 m nth).isSome = decide (m % 4 = 0) := by
    unfold matmulSelect
    by_cases h16 : m % 16 = 0 ∧ m / 16 ≥ nth
    · have h4 : m % 4 = 0 := by omega
      cases regs32 <;> simp [h16, h4]
    · by_cases h8 : m % 8 = 0
      · have h4 : m % 4 = 0 := by omega
        cases regs32 <;> simp [h16, h8, h4]
      · by_cases h4 : m % 4 = 0
        · cases regs32 <;> simp [h16, h8, h4]
        · cases regs32 <;> simp [h16, h8, h4]
  unfold matmulReturns
  by_cases h : k % KN = 0
  · simp [h, hsel]
  · simp [h]

/-! ## SIMD byte-vector model

`__m128i` and `__m256i` values are modelled as `Fin 16 → ℕ` and `Fin 32 → ℕ`
byte vectors (little-endian lane order, lane values `< 256` where a theorem
needs it). -/

/-- A 128-bit SIMD register as 16 byte lanes. -/
abbrev V16 := Fin 16 → ℕ

/-- A 256-bit SIMD register as 32 byte lanes. -/
abbrev V32 := Fin 32 → ℕ

/-- Signed (two's-complement) value of a byte lane. -/
def toSigned (b : ℕ) : ℤ := if b % 256 < 128 then (b % 256 : ℤ) else (b % 256 : ℤ) - 256

/-- `_mm_set1_epi8`. -/
def mm_set1_epi8 (v : ℕ) : V16 := fun _ => v % 256

/-- `_mm256_set1_epi8`. -/
def mm256_set1_epi8 (v : ℕ) : V32 := fun _ => v % 256

/-- `_mm256_set1_epi32` of an unsigned 32-bit value: byte `i` is byte
`i % 4` of the value. -/
def mm256_set1_epi32 (x : ℕ) : V32 := fun i => (x >>> (8 * (i.val % 4))) % 256

/-- `_mm256_set1_epi64x` of an unsigned 64-bit pattern: byte `i` is byte
`i % 8` of the value (a negative argument in the source is passed as its
two's-complement 64-bit pattern). -/
def mm256_set1_epi64x (x : ℕ) : V32 := fun i => (x >>> (8 * (i.val % 8))) % 256

/-- `_mm256_set_epi64x(e3, e2, e1, e0)`: bytes 0-7 from `e0`, …, bytes 24-31
from `e3`. -/
def mm256_set_epi64x (e3 e2 e1 e0 : ℕ) : V32 := fun i =>
  let e := if i.val < 8 then e0 else if i.val < 16 then e1 else if i.val < 24 then e2 else e3
  (e >>> (8 * (i.val % 8))) % 256

/-- `_mm_and_si128`. -/
def mm_and_si128 (x y : V16) : V16 := fun i => x i &&& y i

/-- `_mm256_and_si256`. -/
def mm256_and_si256 (x y : V32) : V32 := fun i => x i &&& y i

/-- `_mm256_or_si256`. -/
def mm256_or_si256 (x y : V32) : V32 := fun i => x i ||| y i

/-- `_mm256_andnot_si256`: `~x & y`, bytewise. -/
def mm256_andnot_si256 (x y : V32) : V32 := fun i => (255 ^^^ (x i % 256)) &&& y i

/-- `_mm256_cmpeq_epi8`: `0xFF` where the byte lanes agree, `0x00` elsewhere. -/
def mm256_cmpeq_epi8 (x y : V32) : V32 := fun i => if x i % 256 = y i % 256 then 255 else 0

/-- `_mm_srli_epi16(x, c)`: logical right shift of each 16-bit word
(little-endian byte pairs). -/
def mm_srli_epi16 (x : V16) (c : ℕ) : V16 := fun i =>
  let lo := x ⟨2 * (i.val / 2), by omega⟩ % 256
  let hi := x ⟨2 * (i.val / 2) + 1, by omega⟩ % 256
  let w := (lo + 256 * hi) >>> c
  if i.val % 2 = 0 then w % 256 else (w / 256) % 256

/-- `_mm256_sub_epi8` (wrapping bytewise subtraction). -/
def mm256_sub_epi8 (x y : V32) : V32 := fun i => (x i % 256 + 256 - y i % 256) % 256

/-- `_mm_shuffle_epi8`: byte `i` of the result is byte `idx[i] mod 16` of `x`,
or `0` when the top bit of `idx[i]` is set. -/
def mm_shuffle_epi8 (x idx : V16) : V16 := fun i =>
  if 128 ≤ idx i % 256 then 0 else x ⟨idx i % 16, by omega⟩

/-- `_mm256_shuffle_epi8`: as `_mm_shuffle_epi8` but per 128-bit half. -/
def mm256_shuffle_epi8 (x idx : V32) : V32 := fun i =>
  if 128 ≤ idx i % 256 then 0 else x ⟨i.val / 16 * 16 + idx i % 16, by omega⟩

/-- `MM256_SET_M128I(a, b)` (sgemm.cpp line 71): low half `b`, high half `a`. -/
def MM256_SET_M128I (a b : V16) : V32 := fun i =>
  if h : i.val < 16 then b ⟨i.val, h⟩ else a ⟨i.val - 16, by omega⟩

/-! ## Quantised block types and decoders (sgemm.cpp lines 831-929) -/

/-- `block_q8_0`: f16 delta bits and 32 signed bytes. -/
structure BlockQ8 where
  d : ℕ
  qs : Fin 32 → ℕ

/-- `block_q4_0`: f16 delta bits and 16 bytes of packed nibbles. -/
structure BlockQ4 where
  d : ℕ
  qs : Fin 16 → ℕ

/-- `block_q5_0`: f16 delta bits, 4 bytes of high-bit mask, 16 bytes of
packed nibbles. -/
structure BlockQ5 where
  d : ℕ
  qh : Fin 4 → ℕ
  qs : Fin 16 → ℕ

/-- `block_iq4_nl`: f16 delta bits and 16 bytes of packed LUT indices. -/
structure BlockIQ4 where
  d : ℕ
  qs : Fin 16 → ℕ

/-- `denibble(p)` (sgemm.cpp lines 913-918): low nibbles in lanes 0-15, high
nibbles in lanes 16-31. -/
def denibble (qs : V16) : V32 :=
  mm256_and_si256 (mm256_set1_epi8 15)
    (MM256_SET_M128I (mm_srli_epi16 qs 4) qs)

/-- The 32-bit value read by `memcpy(&x32, p, 4)` (little-endian). -/
def qh32 (qh : Fin 4 → ℕ) : ℕ :=
  qh 0 % 256 + 256 * (qh 1 % 256) + 65536 * (qh 2 % 256) + 16777216 * (qh 3 % 256)

/-- `bittobyte(p)` (sgemm.cpp lines 920-929): expand the 32-bit mask to 32
bytes, `0xF0` where the bit is clear and `0x00` where it is set. -/
def bittobyte (qh : Fin 4 → ℕ) : V32 :=
  let x32 := qh32 qh
  let bytes := mm256_cmpeq_epi8 (mm256_set1_epi64x 0xffffffffffffffff)
    (mm256_or_si256 (mm256_set1_epi64x 0x7fbfdfeff7fbfdfe)
      (mm256_shuffle_epi8 (mm256_set1_epi32 x32)
        (mm256_set_epi64x 0x0303030303030303 0x0202020202020202
                          0x0101010101010101 0x0000000000000000)))
  mm256_andnot_si256 bytes (mm256_set1_epi8 0xF0)

/-- `load(const block_q8_0 *)` (sgemm.cpp line 831): verbatim payload. -/
def load_q8 (b : BlockQ8) : V32 := b.qs

/-- `load(const block_q4_0 *)` (sgemm.cpp line 843): nibbles minus 8. -/
def load_q4 (b : BlockQ4) : V32 :=
  mm256_sub_epi8 (denibble b.qs) (mm256_set1_epi8 8)

/-- `load(const block_q5_0 *)` (sgemm.cpp line 857): nibbles OR the expanded
high-bit bank. -/
def load_q5 (b : BlockQ5) : V32 :=
  mm256_or_si256 (denibble b.qs) (bittobyte b.qh)

/-- `kvalues_iq4nl` (sgemm.cpp lines 508-513): the fixed signed lookup
table for `iq4_nl`. -/
def kvalues_iq4nl : Fin 16 → ℤ :=
  ![-127, -104, -83, -65,
    -49,  -35,  -22, -10,
      1,   13,   25,  38,
     53,   69,   89, 113]

/-- `iq4nlt` (sgemm.cpp line 515): the lookup table loaded into a 128-bit
register, as unsigned bytes. -/
def iq4nlt : V16 := fun i => ((kvalues_iq4nl i) % 256).toNat

/-- `load0(const block_iq4_nl *)` (sgemm.cpp line 891). -/
def load0_iq4 (b : BlockIQ4) : V16 :=
  mm_shuffle_epi8 iq4nlt (mm_and_si128 (mm_set1_epi8 15) b.qs)

/-- `load1(const block_iq4_nl *)` (sgemm.cpp line 896). -/
def load1_iq4 (b : BlockIQ4) : V16 :=
  mm_shuffle_epi8 iq4nlt (mm_and_si128 (mm_set1_epi8 15) (mm_srli_epi16 b.qs 4))

/-- `load(const block_iq4_nl *)` (sgemm.cpp line 887). -/
def load_iq4nl (b : BlockIQ4) : V32 :=
  MM256_SET_M128I (load1_iq4 b) (load0_iq4 b)

/-- The `i`-th 4-bit nibble of a 16-byte payload: low nibbles are lanes 0-15,
high nibbles lanes 16-31 (specification-side description of the packing,
spec.md section 6). -/
def nibble (qs : V16) (i : Fin 32) : ℕ :=
  if h : i.val < 16 then qs ⟨i.val, h⟩ % 16
  else (qs ⟨i.val - 16, by omega⟩ / 16) % 16

/-! ### Lane-level behaviour of the decoders -/

theorem and15 (x : ℕ) : 15 &&& x = x % 16 := by
  rw [Nat.and_comm]
  simpa using Nat.and_pow_two_sub_one_eq_mod x 4

set_option maxRecDepth 100000 in
theorem maskOrBounded :
    ∀ j < 8, ∀ b < 256,
      (255 = ((255 - 2^j) ||| b) % 256) = (b.testBit j = true) := by decide

theorem maskOr0 (b : ℕ) :
    (255 = (254 ||| b % 256) % 256) = ((b % 256).testBit 0 = true) :=
  maskOrBounded 0 (by norm_num) (b % 256) (Nat.mod_lt _ (by norm_num))

theorem maskOr1 (b : ℕ) :
    (255 = (253 ||| b % 256) % 256) = ((b % 256).testBit 1 = true) :=
  maskOrBounded 1 (by norm_num) (b % 256) (Nat.mod_lt _ (by norm_num))

theorem maskOr2 (b : ℕ) :
    (255 = (251 ||| b % 256) % 256) = ((b % 256).testBit 2 = true) :=
  maskOrBounded 2 (by norm_num) (b % 256) (Nat.mod_lt _ (by norm_num))

theorem maskOr3 (b : ℕ) :
    (255 = (247 ||| b % 256) % 256) = ((b % 256).testBit 3 = true) :=
  maskOrBounded 3 (by norm_num) (b % 256) (Nat.mod_lt _ (by norm_num))

theorem maskOr4 (b : ℕ) :
    (255 = (239 ||| b % 256) % 256) = ((b % 256).testBit 4 = true) :=
  maskOrBounded 4 (by norm_num) (b % 256) (Nat.mod_lt _ (by norm_num))

theorem maskOr5 (b : ℕ) :
    (255 = (223 ||| b % 256) % 256) = ((b % 256).testBit 5 = true) :=
  maskOrBounded 5 (by norm_num) (b % 256) (Nat.mod_lt _ (by norm_num))

theorem maskOr6 (b : ℕ) :
    (255 = (191 ||| b % 256) % 256) = ((b % 256).testBit 6 = true) :=
  maskOrBounded 6 (by norm_num) (b % 256) (Nat.mod_lt _ (by norm_num))

theorem maskOr7 (b : ℕ) :
    (255 = (127 ||| b % 256) % 256) = ((b % 256).testBit 7 = true) :=
  maskOrBounded 7 (by norm_num) (b % 256) (Nat.mod_lt _ (by norm_num))

/-- The lanes of `denibble` are exactly the 32 nibbles of the payload. -/
theorem denibble_lane (qs : V16) (hqs : ∀ j, qs j < 256) (i : Fin 32) :
    denibble qs i = nibble qs i := by
  have h0 := hqs 0; have h1 := hqs 1; have h2 := hqs 2; have h3 := hqs 3
  have h4 := hqs 4; have h5 := hqs 5; have h6 := hqs 6; have h7 := hqs 7
  have h8 := hqs 8; have h9 := hqs 9; have h10 := hqs 10; have h11 := hqs 11
  have h12 := hqs 12; have h13 := hqs 13; have h14 := hqs 14; have h15 := hqs 15
  rcases i with ⟨iv, hiv⟩
  interval_cases iv <;>
    simp only [denibble, mm256_and_si256, mm256_set1_epi8, MM256_SET_M128I,
      mm_srli_epi16, nibble, Nat.shiftRight_eq_div_pow] <;>
    norm_num [and15] <;> omega

/-- The lanes of `bittobyte` broadcast the bits of the 32-bit mask:
`0x00` where the bit is set, `0xF0` where it is clear. -/
theorem bittobyte_lane (qh : Fin 4 → ℕ) (i : Fin 32) :
    bittobyte qh i = if (qh32 qh).testBit i.val then 0 else 0xF0 := by
  rcases i with ⟨iv, hiv⟩
  interval_cases iv <;>
  · simp only [bittobyte, mm256_cmpeq_epi8, mm256_or_si256, mm256_set1_epi64x,
      mm256_set1_epi32, mm256_shuffle_epi8, mm256_set_epi64x, mm256_andnot_si256,
      mm256_set1_epi8, Nat.shiftRight_eq_div_pow]
    norm_num
    simp only [maskOr0, maskOr1, maskOr2, maskOr3, maskOr4, maskOr5, maskOr6, maskOr7]
    simp only [Nat.testBit_to_div_mod, decide_eq_true_eq]
    split_ifs with h1 h2 <;> first | decide | omega

/-! ## C6: the q5_0 decoder -/

/-- C6: lane `i` of `load(const block_q5_0 *)` is the `i`-th nibble of the
payload OR-ed with `0xF0` when bit `i` of the 32-bit `qh` field is clear and
with `0x00` when it is set. -/
theorem load_q5_decodes (b : BlockQ5) (hqs : ∀ j, b.qs j < 256) (i : Fin 32) :
    load_q5 b i =
      (nibble b.qs i ||| if (qh32 b.qh).testBit i.val then 0x00 else 0xF0) := by
  unfold load_q5 mm256_or_si256
  rw [denibble_lane b.qs hqs i, bittobyte_lane b.qh i]

/-- Witness for C6: a concrete `q5_0` block, lane 21. -/
theorem load_q5_decodes_witness :
    (∀ j, (BlockQ5.mk 0 (fun jj => 166 + jj.val) (fun jj => 16 * jj.val % 256)).qs j < 256) ∧
      load_q5 (BlockQ5.mk 0 (fun jj => 166 + jj.val) (fun jj => 16 * jj.val % 256)) ⟨21, by decide⟩ =
        (nibble (BlockQ5.mk 0 (fun jj => 166 + jj.val) (fun jj => 16 * jj.val % 256)).qs ⟨21, by decide⟩ |||
          if (qh32 (BlockQ5.mk 0 (fun jj => 166 + jj.val) (fun jj => 16 * jj.val % 256)).qh).testBit 21
          then 0x00 else 0xF0) :=
  ⟨by decide, load_q5_decodes _ (by decide) _⟩
theorem nibble_lt (qs : V16) (i : Fin 32) : nibble qs i < 16 := by
  unfold nibble
  split <;> omega

theorem toSigned_iq4nlt : ∀ v : Fin 16, toSigned (iq4nlt v) = kvalues_iq4nl v := by decide

/-- C7: each decoded i8 lane of `load(const block_iq4_nl *)` is the entry of
the fixed 16-entry lookup table indexed by the corresponding nibble. -/
theorem load_iq4nl_decodes (b : BlockIQ4) (hqs : ∀ j, b.qs j < 256) (i : Fin 32) :
    toSigned (load_iq4nl b i) =
      kvalues_iq4nl ⟨nibble b.qs i, nibble_lt b.qs i⟩ := by
  unfold load_iq4nl MM256_SET_M128I
  by_cases h : i.val < 16
  · rw [dif_pos h]
    unfold load0_iq4 mm_shuffle_epi8 mm_and_si128 mm_set1_epi8
    have hv : 15 % 256 &&& b.qs ⟨i.val, h⟩ = b.qs ⟨i.val, h⟩ % 16 := by
      norm_num [and15]
    rw [if_neg (by simp only [hv]; omega)]
    rw [toSigned_iq4nlt]
    congr 1
    refine Fin.ext ?_
    show (15 % 256 &&& b.qs ⟨i.val, h⟩) % 16 = nibble b.qs i
    unfold nibble
    rw [dif_pos h]
    simp only [hv]
    omega
  · rw [dif_neg h]
    have hd : (15 % 256 &&& mm_srli_epi16 b.qs 4 ⟨i.val - 16, by omega⟩) = nibble b.qs i := by
      have hh := denibble_lane b.qs hqs i
      unfold denibble mm256_and_si256 mm256_set1_epi8 MM256_SET_M128I at hh
      rw [dif_neg h] at hh
      exact hh
    have hnl := nibble_lt b.qs i
    unfold load1_iq4 mm_shuffle_epi8 mm_and_si128 mm_set1_epi8
    rw [if_neg (by simp only [hd]; omega)]
    rw [toSigned_iq4nlt]
    congr 1
    refine Fin.ext ?_
    show (15 % 256 &&& mm_srli_epi16 b.qs 4 ⟨i.val - 16, by omega⟩) % 16 = nibble b.qs i
    simp only [hd]
    omega


/-- Witness for C7: a concrete `iq4_nl` block, lane 23. -/
theorem load_iq4nl_decodes_witness :
    (∀ j, (BlockIQ4.mk 0 (fun jj => 7 + 13 * jj.val)).qs j < 256) ∧
      toSigned (load_iq4nl (BlockIQ4.mk 0 (fun jj => 7 + 13 * jj.val)) ⟨23, by decide⟩) =
        kvalues_iq4nl
          ⟨nibble (BlockIQ4.mk 0 (fun jj => 7 + 13 * jj.val)).qs ⟨23, by decide⟩,
            nibble_lt _ _⟩ :=
  ⟨by decide, load_iq4nl_decodes _ (by decide) _⟩
/-! ## The `updot` dot-product tiers (sgemm.cpp lines 901-911) -/

/-- Signed 32-bit wrap-around (the semantics of i32 lane accumulation). -/
def wrap32 (z : ℤ) : ℤ := (z + 2^31) % 2^32 - 2^31

/-- The exact (pre-saturation) value of a 16-bit lane of
`_mm256_maddubs_epi16(u, s)`: the sum of the two u8×i8 products of the
adjacent byte pair. -/
def maddubsRaw (u s : V32) (j : Fin 16) : ℤ :=
  ((u ⟨2 * j.val, by omega⟩ % 256 : ℕ) : ℤ) * toSigned (s ⟨2 * j.val, by omega⟩) +
  ((u ⟨2 * j.val + 1, by omega⟩ % 256 : ℕ) : ℤ) * toSigned (s ⟨2 * j.val + 1, by omega⟩)

/-- `_mm256_maddubs_epi16(u, s)`: the raw pair sums, saturated to i16. -/
def mm256_maddubs_epi16 (u s : V32) : Fin 16 → ℤ := fun j =>
  max (-32768) (min 32767 (maddubsRaw u s j))

/-- `_mm256_madd_epi16(_mm256_set1_epi16(1), w)`: adjacent 16-bit lanes summed
into each i32 lane. -/
def mm256_madd1_epi16 (w : Fin 16 → ℤ) : Fin 8 → ℤ := fun d =>
  wrap32 (w ⟨2 * d.val, by omega⟩ + w ⟨2 * d.val + 1, by omega⟩)

/-- `_mm256_dpbusd_epi32(_mm256_setzero_si256(), u, s)` (and the
`_mm256_dpbusd_avx_epi32` mnemonic): each i32 lane accumulates four u8×i8
products with no intermediate saturation. -/
def dpbusd_epi32 (u s : V32) : Fin 8 → ℤ := fun d =>
  wrap32
    (((u ⟨4 * d.val, by omega⟩ % 256 : ℕ) : ℤ) * toSigned (s ⟨4 * d.val, by omega⟩) +
     ((u ⟨4 * d.val + 1, by omega⟩ % 256 : ℕ) : ℤ) * toSigned (s ⟨4 * d.val + 1, by omega⟩) +
     ((u ⟨4 * d.val + 2, by omega⟩ % 256 : ℕ) : ℤ) * toSigned (s ⟨4 * d.val + 2, by omega⟩) +
     ((u ⟨4 * d.val + 3, by omega⟩ % 256 : ℕ) : ℤ) * toSigned (s ⟨4 * d.val + 3, by omega⟩))

/-- `updot`, AVX512-VNNI tier (sgemm.cpp line 904).  The final
`_mm256_cvtepi32_ps` is a pure function of the eight i32 lanes; it is carried
as the abstract conversion `cvt`, so equality of results for every `cvt`
captures bit-identity of the f32 vectors. -/
def updot_vnni512 {F8 : Type} (cvt : (Fin 8 → ℤ) → F8) (u s : V32) : F8 :=
  cvt (dpbusd_epi32 u s)

/-- `updot`, AVX-VNNI tier (sgemm.cpp line 906): the alternate mnemonic with
the same dpbusd semantics. -/
def updot_vnniavx {F8 : Type} (cvt : (Fin 8 → ℤ) → F8) (u s : V32) : F8 :=
  cvt (dpbusd_epi32 u s)

/-- `updot`, maddubs/madd widening fallback tier (sgemm.cpp line 908). -/
def updot_fallback {F8 : Type} (cvt : (Fin 8 → ℤ) → F8) (u s : V32) : F8 :=
  cvt (mm256_madd1_epi16 (mm256_maddubs_epi16 u s))

/-! ## C5: the three `updot` tiers agree when no saturation occurs -/

/-- C5: for every pair of 32-lane byte vectors `u` (unsigned) and `s` (signed)
such that no intermediate i16 saturation occurs in the fallback tier, the
three implementation tiers of `updot` return bit-identical 8-lane f32
partial-sum vectors (for every interpretation `cvt` of the final i32→f32
conversion). -/
theorem updot_tiers_agree {F8 : Type} (cvt : (Fin 8 → ℤ) → F8) (u s : V32)
    (hsat : ∀ j : Fin 16, -32768 ≤ maddubsRaw u s j ∧ maddubsRaw u s j ≤ 32767) :
    updot_fallback cvt u s = updot_vnni512 cvt u s ∧
      updot_vnniavx cvt u s = updot_vnni512 cvt u s := by
  refine ⟨?_, rfl⟩
  unfold updot_fallback updot_vnni512
  congr 1
  funext d
  unfold mm256_madd1_epi16 mm256_maddubs_epi16
  have h1 := hsat ⟨2 * d.val, by omega⟩
  have h2 := hsat ⟨2 * d.val + 1, by omega⟩
  rw [min_eq_right h1.2, max_eq_right h1.1, min_eq_right h2.2, max_eq_right h2.1]
  unfold maddubsRaw dpbusd_epi32
  congr 1
  have e1 : 2 * (2 * d.val) = 4 * d.val := by ring
  have e2 : 2 * (2 * d.val + 1) = 4 * d.val + 2 := by ring
  have e3 : 2 * (2 * d.val) + 1 = 4 * d.val + 1 := by ring
  have e4 : 2 * (2 * d.val + 1) + 1 = 4 * d.val + 3 := by ring
  simp only [e1, e2, e3, e4]
  ring

/-- Witness for C5 at concrete vectors. -/
theorem updot_tiers_agree_witness :
    (∀ j : Fin 16,
        -32768 ≤ maddubsRaw (fun i => 7 * i.val) (fun i => 200 + i.val) j ∧
          maddubsRaw (fun i => 7 * i.val) (fun i => 200 + i.val) j ≤ 32767) ∧
      (updot_fallback id (fun i => 7 * i.val) (fun i => 200 + i.val) =
          updot_vnni512 id (fun i => 7 * i.val) (fun i => 200 + i.val) ∧
        updot_vnniavx id (fun i => 7 * i.val) (fun i => 200 + i.val) =
          updot_vnni512 id (fun i => 7 * i.val) (fun i => 200 + i.val)) :=
  ⟨by decide, updot_tiers_agree id _ _ (by decide)⟩

/-! ## Quantised shape dispatch: `tinyBLAS_Q0_AVX::mnpack` (sgemm.cpp lines 523-666) -/

/-- Which quantised kernel a `switch` case dispatches: the 4-wide fast
variants `gemm4xN<RN>` / `gemmMx4<RM>` (compiled under `__AVX2__ && __F16C__`)
or the generic `gemm<RM, RN>`. -/
inductive QKernel where
  | fast4xN (RN : ℕ)
  | fastMx4 (RM : ℕ)
  | generic (RM RN : ℕ)
deriving DecidableEq

/-- The `(mc, nc, kernel)` selected by the `switch` of `mnpack` for a given
key `(MIN(m - m0, 4) << 4) | MIN(n - n0, 4)`; `none` is the `default` case.
`regs32` is the compile-time `VECTOR_REGISTERS == 32` flag (under 16
registers the cases 0x44/0x43/0x42 collapse to `(4,2)`, 0x34/0x24 to `(2,4)`
and 0x33 to `(3,2)`). -/
def mnpackCase (regs32 : Bool) (key : ℕ) : Option (ℕ × ℕ × QKernel) :=
  if regs32 then
    match key with
    | 0x44 => some (4, 4, .fast4xN 4)
    | 0x43 => some (4, 3, .fast4xN 3)
    | 0x34 => some (3, 4, .fastMx4 3)
    | 0x33 => some (3, 3, .generic 3 3)
    | 0x42 => some (4, 2, .fast4xN 2)
    | 0x24 => some (2, 4, .fastMx4 2)
    | 0x32 => some (3, 2, .generic 3 2)
    | 0x23 => some (2, 3, .generic 2 3)
    | 0x41 => some (4, 1, .fast4xN 1)
    | 0x22 => some (2, 2, .generic 2 2)
    | 0x14 => some (1, 4, .fastMx4 1)
    | 0x31 => some (3, 1, .generic 3 1)
    | 0x13 => some (1, 3, .generic 1 3)
    | 0x21 => some (2, 1, .generic 2 1)
    | 0x12 => some (1, 2, .generic 1 2)
    | 0x11 => some (1, 1, .generic 1 1)
    | _ => none
  else
    match key with
    | 0x44 => some (4, 2, .fast4xN 2)
    | 0x43 => some (4, 2, .fast4xN 2)
    | 0x42 => some (4, 2, .fast4xN 2)
    | 0x34 => some (2, 4, .fastMx4 2)
    | 0x24 => some (2, 4, .fastMx4 2)
    | 0x33 => some (3, 2, .generic 3 2)
    | 0x32 => some (3, 2, .generic 3 2)
    | 0x23 => some (2, 3, .generic 2 3)
    | 0x41 => some (4, 1, .fast4xN 1)
    | 0x22 => some (2, 2, .generic 2 2)
    | 0x14 => some (1, 4, .fastMx4 1)
    | 0x31 => some (3, 1, .generic 3 1)
    | 0x13 => some (1, 3, .generic 1 3)
    | 0x21 => some (2, 1, .generic 2 1)
    | 0x12 => some (1, 2, .generic 1 2)
    | 0x11 => some (1, 1, .generic 1 1)
    | _ => none

/-- A dispatched region: the arguments `(m0, m, n0, n)` the kernel is called
with, together with its `(mc, nc, kernel)` selection. -/
abbrev QRegion := ℕ × ℕ × ℕ × ℕ × (ℕ × ℕ × QKernel)

/-- `mnpack(m0, m, n0, n)`: the list of dispatched regions, in dispatch
order.  Defined with explicit recursion fuel (`none` = fuel exhausted): the
termination claim C10 shows that fuel `(m - m0) + (n - n0) + 1` always
suffices.  The `default` case of the `switch` returns without dispatching. -/
def mnpackQ (regs32 : Bool) : ℕ → ℕ → ℕ → ℕ → ℕ → Option (List QRegion)
  | 0, _, _, _, _ => none
  | fuel + 1, m0, m, n0, n =>
    match h : mnpackCase regs32 ((min (m - m0) 4) <<< 4 ||| min (n - n0) 4) with
    | none => some []
    | some (mc, nc, kern) =>
      let mp := m0 + (m - m0) / mc * mc
      let np := n0 + (n - n0) / nc * nc
      match mnpackQ regs32 fuel mp m n0 np, mnpackQ regs32 fuel m0 m np n with
      | some l1, some l2 => some ((m0, m, n0, n, (mc, nc, kern)) :: (l1 ++ l2))
      | _, _ => none

/-- Every matched `switch` case satisfies `1 ≤ mc ≤ min (m-m0) 4` and
`1 ≤ nc ≤ min (n-n0) 4`. -/
theorem mnpackCase_bounds :
    ∀ regs32 : Bool, ∀ a < 5, ∀ b < 5,
      (match mnpackCase regs32 (16 * a + b) with
        | none => true
        | some (mc, nc, _) => decide (1 ≤ mc ∧ mc ≤ a ∧ 1 ≤ nc ∧ nc ≤ b)) = true := by
  decide

/-- A key with a zero nibble hits the `default` case. -/
theorem mnpackCase_zero :
    ∀ regs32 : Bool, ∀ a < 5, ∀ b < 5, (a = 0 ∨ b = 0) →
      (mnpackCase regs32 (16 * a + b)).isNone = true := by decide

/-- The key expression: for nibbles `≤ 4` the shift-or is plain arithmetic. -/
theorem key_eq : ∀ a < 5, ∀ b < 5, a <<< 4 ||| b = 16 * a + b := by decide

theorem mnpackQ_isSome (regs32 : Bool) :
    ∀ fuel m0 m n0 n, (m - m0) + (n - n0) < fuel →
      (mnpackQ regs32 fuel m0 m n0 n).isSome := by
  intro fuel
  induction fuel with
  | zero => intro m0 m n0 n hf; omega
  | succ f ih =>
    intro m0 m n0 n hf
    have ha : min (m - m0) 4 < 5 := by omega
    have hb : min (n - n0) 4 < 5 := by omega
    simp only [mnpackQ]
    rw [key_eq _ ha _ hb]
    cases hcase : mnpackCase regs32 (16 * min (m - m0) 4 + min (n - n0) 4) with
    | none => rfl
    | some x =>
      obtain ⟨mc, nc, kern⟩ := x
      have hbnd := mnpackCase_bounds regs32 _ ha _ hb
      rw [hcase] at hbnd
      simp only [decide_eq_true_eq] at hbnd
      obtain ⟨hmc1, hmca, hnc1, hncb⟩ := hbnd
      have hmcle : mc ≤ m - m0 := by omega
      have hncle : nc ≤ n - n0 := by omega
      have ht1 : (m - m0) / mc * mc ≤ m - m0 := Nat.div_mul_le_self _ _
      have ht2 : mc ≤ (m - m0) / mc * mc := by
        have hq : 1 ≤ (m - m0) / mc := (Nat.one_le_div_iff (by omega)).mpr hmcle
        calc mc = 1 * mc := (Nat.one_mul mc).symm
        _ ≤ (m - m0) / mc * mc := Nat.mul_le_mul_right mc hq
      have hu1 : (n - n0) / nc * nc ≤ n - n0 := Nat.div_mul_le_self _ _
      have hu2 : nc ≤ (n - n0) / nc * nc := by
        have hq : 1 ≤ (n - n0) / nc := (Nat.one_le_div_iff (by omega)).mpr hncle
        calc nc = 1 * nc := (Nat.one_mul nc).symm
        _ ≤ (n - n0) / nc * nc := Nat.mul_le_mul_right nc hq
      have hs1 := ih (m0 + (m - m0) / mc * mc) m n0 (n0 + (n - n0) / nc * nc) (by omega)
      have hs2 := ih m0 m (n0 + (n - n0) / nc * nc) n (by omega)
      obtain ⟨l1, e1⟩ := Option.isSome_iff_exists.mp hs1
      obtain ⟨l2, e2⟩ := Option.isSome_iff_exists.mp hs2
      simp only [e1, e2]
      rfl

/-- C10: `mnpack(m0, m, n0, n)` terminates: each recursive call strictly
shrinks `(m - m0) + (n - n0)`, so recursion fuel exceeding that measure
suffices; and when `m - m0 = 0` or `n - n0 = 0` the switch key has a zero
nibble, hits the `default` case, and `mnpack` returns immediately without
dispatching any tile or recursing. -/
theorem mnpack_terminates (regs32 : Bool) (m0 m n0 n fuel : ℕ)
    (hfuel : (m - m0) + (n - n0) < fuel) :
    (mnpackQ regs32 fuel m0 m n0 n).isSome ∧
      ((m - m0 = 0 ∨ n - n0 = 0) → mnpackQ regs32 fuel m0 m n0 n = some []) := by
  refine ⟨mnpackQ_isSome regs32 fuel m0 m n0 n hfuel, fun hz => ?_⟩
  have ha : min (m - m0) 4 < 5 := by omega
  have hb : min (n - n0) 4 < 5 := by omega
  have hzero : (mnpackCase regs32 (16 * min (m - m0) 4 + min (n - n0) 4)).isNone = true := by
    apply mnpackCase_zero regs32 _ ha _ hb
    omega
  rw [Option.isNone_iff_eq_none] at hzero
  cases fuel with
  | zero => omega
  | succ f =>
    simp only [mnpackQ]
    rw [key_eq _ ha _ hb, hzero]

/-- Witness for C10 at `(m0, m, n0, n) = (0, 7, 0, 5)`, fuel 13. -/
theorem mnpack_terminates_witness :
    ((7 - 0) + (5 - 0) < 13) ∧
      ((mnpackQ true 13 0 7 0 5).isSome ∧
        ((7 - 0 = 0 ∨ 5 - 0 = 0) → mnpackQ true 13 0 7 0 5 = some [])) :=
  ⟨by decide, mnpack_terminates true 0 7 0 5 13 (by decide)⟩

/-! ## Quantised tile kernels (sgemm.cpp lines 668-829)

The kernels are embedded parametrically over the f32 value domain: `F` is the
type of f32 scalars and `F8` of 8-lane f32 vectors, with the IEEE operations
carried as abstract functions.  Every theorem below holds for each
interpretation of these operations, which captures bit-level behaviour of the
concrete ones. -/

/-- The abstract f32 operations a quantised kernel uses. -/
structure QOps (F F8 : Type) where
  /-- `GGML_FP16_TO_FP32` (`unhalf`, sgemm.cpp line 75) on a 16-bit pattern;
  also the per-lane conversion of `_mm_cvtph_ps`. -/
  fp16 : ℕ → F
  /-- IEEE f32 multiplication (scalar `*` and per-lane `_mm_mul_ps`). -/
  fmul : F → F → F
  /-- `_mm256_cvtepi32_ps` as a function of the eight i32 lanes. -/
  cvt : (Fin 8 → ℤ) → F8
  /-- `madd(a, b, c)` with a broadcast first operand: all lanes of `a` hold
  the same f32 scalar (`_mm256_set1_ps` in `gemm`, the
  `permute2f128`/`shuffle_ps` broadcast in `gemm4xN`/`gemmMx4`). -/
  madd8 : F → F8 → F8 → F8
  /-- `hsum` of an 8-lane f32 vector. -/
  hsum8 : F8 → F
  /-- the zero-initialised accumulator `{}`. -/
  zero8 : F8

/-- The operand blocks as the kernels see them: for a flat block index
`lda·row + l` (resp. `ldb·col + l`), the f16 delta bits `.d` and the byte
vector returned by the type's `load`. -/
structure QMats where
  Ad : ℕ → ℕ
  Av : ℕ → V32
  Bd : ℕ → ℕ
  Bv : ℕ → V32
  lda : ℕ
  ldb : ℕ
  k : ℕ

/-- `_mm256_sign_epi8` on one byte: negate where `y` is negative, zero where
`y` is zero, pass where positive. -/
def sign8 (x y : ℕ) : ℕ :=
  if toSigned y < 0 then (256 - x % 256) % 256
  else if toSigned y = 0 then 0
  else x % 256

/-- `_mm256_sign_epi8`. -/
def mm256_sign_epi8 (x y : V32) : V32 := fun i => sign8 (x i) (y i)

/-- Write `v` into slot `(j, i)` of an accumulator array `Cv[j][i]`. -/
def upd2 {α : Type} (Cv : ℕ → ℕ → α) (j i : ℕ) (v : α) : ℕ → ℕ → α :=
  fun j' i' => if j' = j ∧ i' = i then v else Cv j' i'

theorem upd2_same {α : Type} (Cv : ℕ → ℕ → α) (j i : ℕ) (v : α) :
    upd2 Cv j i v j i = v := by
  simp [upd2]

theorem foldl_upd2_inner {α : Type} (j' : ℕ) (g2 : ℕ → α → α) :
    ∀ (L : List ℕ), L.Nodup → ∀ (C : ℕ → ℕ → α) (j i : ℕ),
      (L.foldl (fun C2 i' => upd2 C2 j' i' (g2 i' (C2 j' i'))) C) j i =
        if j = j' ∧ i ∈ L then g2 i (C j i) else C j i := by
  intro L
  induction L with
  | nil => intro _ C j i; simp
  | cons a L ih =>
    intro hnd C j i
    rcases List.nodup_cons.mp hnd with ⟨ha, hL⟩
    simp only [List.foldl_cons]
    rw [ih hL]
    by_cases hj : j = j'
    · subst hj
      by_cases hi : i ∈ L
      · have hia : i ≠ a := fun h => ha (h ▸ hi)
        simp [hi, hia, upd2]
      · by_cases hia : i = a
        · subst hia
          simp [hi, upd2]
        · simp [hi, hia, upd2]
    · simp [hj, upd2]

theorem foldl_upd2_outer {α : Type} (g : ℕ → ℕ → α → α) (Li : List ℕ) (hLi : Li.Nodup) :
    ∀ (Lj : List ℕ), Lj.Nodup → ∀ (C : ℕ → ℕ → α) (j i : ℕ),
      (Lj.foldl (fun C1 jx =>
          Li.foldl (fun C2 ix => upd2 C2 jx ix (g jx ix (C2 jx ix))) C1) C) j i =
        if j ∈ Lj ∧ i ∈ Li then g j i (C j i) else C j i := by
  intro Lj
  induction Lj with
  | nil => intro _ C j i; simp
  | cons a Lj ih =>
    intro hnd C j i
    rcases List.nodup_cons.mp hnd with ⟨ha, hLj⟩
    simp only [List.foldl_cons]
    rw [ih hLj]
    by_cases hj : j ∈ Lj
    · have hja : j ≠ a := fun h => ha (h ▸ hj)
      by_cases hi : i ∈ Li
      · simp only [hj, hi, and_true, if_true, List.mem_cons, or_true, true_and]
        rw [foldl_upd2_inner _ _ Li hLi]
        simp [hja]
      · simp only [hi, and_false, if_false]
        rw [foldl_upd2_inner _ _ Li hLi]
        simp [hi]
    · by_cases hja : j = a
      · subst hja
        rw [foldl_upd2_inner _ _ Li hLi]
        by_cases hi : i ∈ Li <;> simp [hj, hi]
      · rw [foldl_upd2_inner _ _ Li hLi]
        simp [hj, hja]

theorem foldl_upd2_inner_swapped {α : Type} (i' : ℕ) (g2 : ℕ → α → α) :
    ∀ (L : List ℕ), L.Nodup → ∀ (C : ℕ → ℕ → α) (j i : ℕ),
      (L.foldl (fun C2 jx => upd2 C2 jx i' (g2 jx (C2 jx i'))) C) j i =
        if i = i' ∧ j ∈ L then g2 j (C j i) else C j i := by
  intro L
  induction L with
  | nil => intro _ C j i; simp
  | cons a L ih =>
    intro hnd C j i
    rcases List.nodup_cons.mp hnd with ⟨ha, hL⟩
    simp only [List.foldl_cons]
    rw [ih hL]
    by_cases hi : i = i'
    · subst hi
      by_cases hj : j ∈ L
      · have hja : j ≠ a := fun h => ha (h ▸ hj)
        simp [hj, hja, upd2]
      · by_cases hja : j = a
        · subst hja
          simp [hj, upd2]
        · simp [hj, hja, upd2]
    · simp [hi, upd2]

theorem foldl_upd2_outer_swapped {α : Type} (g : ℕ → ℕ → α → α) (Lj : List ℕ) (hLj : Lj.Nodup) :
    ∀ (Li : List ℕ), Li.Nodup → ∀ (C : ℕ → ℕ → α) (j i : ℕ),
      (Li.foldl (fun C1 ix =>
          Lj.foldl (fun C2 jx => upd2 C2 jx ix (g jx ix (C2 jx ix))) C1) C) j i =
        if j ∈ Lj ∧ i ∈ Li then g j i (C j i) else C j i := by
  intro Li
  induction Li with
  | nil => intro _ C j i; simp
  | cons a Li ih =>
    intro hnd C j i
    rcases List.nodup_cons.mp hnd with ⟨ha, hLi⟩
    simp only [List.foldl_cons]
    rw [ih hLi]
    by_cases hi : i ∈ Li
    · have hia : i ≠ a := fun h => ha (h ▸ hi)
      by_cases hj : j ∈ Lj
      · simp only [hj, hi, and_true, if_true, List.mem_cons, or_true, true_and]
        rw [foldl_upd2_inner_swapped _ _ Lj hLj]
        simp [hia]
      · simp only [hj, false_and, if_false]
        rw [foldl_upd2_inner_swapped _ _ Lj hLj]
        simp [hj]
    · by_cases hia : i = a
      · subst hia
        rw [foldl_upd2_inner_swapped _ _ Lj hLj]
        by_cases hj : j ∈ Lj <;> simp [hj, hi]
      · rw [foldl_upd2_inner_swapped _ _ Lj hLj]
        simp [hi, hia]


theorem foldl_l_eval {α : Type} (G : ℕ → ℕ → ℕ → α → α) (RN RM : ℕ) :
    ∀ (Ll : List ℕ) (C0 : ℕ → ℕ → α) (j i : ℕ), j < RN → i < RM →
      ((Ll.foldl (fun Cv l =>
          (List.range RN).foldl (fun C1 jx =>
            (List.range RM).foldl (fun C2 ix =>
              upd2 C2 jx ix (G l jx ix (C2 jx ix))) C1) Cv) C0) j i) =
        Ll.foldl (fun acc l => G l j i acc) (C0 j i) := by
  intro Ll
  induction Ll with
  | nil => intro C0 j i _ _; rfl
  | cons l Ll ih =>
    intro C0 j i hj hi
    simp only [List.foldl_cons]
    rw [ih _ j i hj hi,
      foldl_upd2_outer (G l) (List.range RM) (List.nodup_range _)
        (List.range RN) (List.nodup_range _)]
    simp [List.mem_range, hj, hi]

theorem foldl_l_eval_swapped {α : Type} (G : ℕ → ℕ → ℕ → α → α) (RN RM : ℕ) :
    ∀ (Ll : List ℕ) (C0 : ℕ → ℕ → α) (j i : ℕ), j < RN → i < RM →
      ((Ll.foldl (fun Cv l =>
          (List.range RM).foldl (fun C1 ix =>
            (List.range RN).foldl (fun C2 jx =>
              upd2 C2 jx ix (G l jx ix (C2 jx ix))) C1) Cv) C0) j i) =
        Ll.foldl (fun acc l => G l j i acc) (C0 j i) := by
  intro Ll
  induction Ll with
  | nil => intro C0 j i _ _; rfl
  | cons l Ll ih =>
    intro C0 j i hj hi
    simp only [List.foldl_cons]
    rw [ih _ j i hj hi,
      foldl_upd2_outer_swapped (G l) (List.range RN) (List.nodup_range _)
        (List.range RM) (List.nodup_range _)]
    simp [List.mem_range, hj, hi]

/-! ### Packing four f16 deltas into a 64-bit word -/

theorem lor_add_of_disjoint {x lo kk : ℕ} (hx : 2 ^ kk ∣ x) (hlo : lo < 2 ^ kk) :
    x ||| lo = x + lo := by
  obtain ⟨q, rfl⟩ := hx
  apply Nat.eq_of_testBit_eq
  intro i
  rw [Nat.testBit_lor, Nat.testBit_mul_pow_two_add q hlo i, Nat.testBit_mul_pow_two]
  by_cases h : i < kk
  · simp [h, Nat.not_le_of_lt h]
  · have hge : i ≥ kk := Nat.le_of_not_lt h
    have : lo < 2 ^ i := lt_of_lt_of_le hlo (Nat.pow_le_pow_right (by norm_num) hge)
    simp [h, hge, Nat.testBit_lt_two_pow this]

/-- The 64-bit packing `(d3 << 48) | (d2 << 32) | (d1 << 16) | d0` of four
f16 bit patterns is their base-2¹⁶ sum. -/
theorem pack4_eq (d0 d1 d2 d3 : ℕ) (h0 : d0 < 65536) (h1 : d1 < 65536)
    (h2 : d2 < 65536) (h3 : d3 < 65536) :
    d3 <<< 48 ||| d2 <<< 32 ||| d1 <<< 16 ||| d0 =
      d0 + 65536 * d1 + 4294967296 * d2 + 281474976710656 * d3 := by
  rw [Nat.shiftLeft_eq, Nat.shiftLeft_eq, Nat.shiftLeft_eq]
  have e1 : d3 * 2 ^ 48 ||| d2 * 2 ^ 32 = d3 * 2 ^ 48 + d2 * 2 ^ 32 := by
    apply @lor_add_of_disjoint _ _ 48
    · exact ⟨d3, by ring⟩
    · calc d2 * 2 ^ 32 < 65536 * 2 ^ 32 := by
            have : (0:ℕ) < 2 ^ 32 := by norm_num
            exact (Nat.mul_lt_mul_right this).mpr h2
      _ = 2 ^ 48 := by norm_num
  have e2 : d3 * 2 ^ 48 + d2 * 2 ^ 32 ||| d1 * 2 ^ 16 =
      d3 * 2 ^ 48 + d2 * 2 ^ 32 + d1 * 2 ^ 16 := by
    apply @lor_add_of_disjoint _ _ 32
    · exact ⟨d3 * 2 ^ 16 + d2, by ring⟩
    · calc d1 * 2 ^ 16 < 65536 * 2 ^ 16 := by
            have : (0:ℕ) < 2 ^ 16 := by norm_num
            exact (Nat.mul_lt_mul_right this).mpr h1
      _ = 2 ^ 32 := by norm_num
  have e3 : d3 * 2 ^ 48 + d2 * 2 ^ 32 + d1 * 2 ^ 16 ||| d0 =
      d3 * 2 ^ 48 + d2 * 2 ^ 32 + d1 * 2 ^ 16 + d0 := by
    apply @lor_add_of_disjoint _ _ 16
    · exact ⟨d3 * 2 ^ 32 + d2 * 2 ^ 16 + d1, by ring⟩
    · exact h0
  rw [e1, e2, e3]
  norm_num
  ring

/-- Extracting 16-bit lane `i < 4` of the packed word recovers `d_i`
(the lanes of `_mm_cvtph_ps(_mm_set_epi64x(0, dd))` before conversion). -/
theorem pack4_lane (d0 d1 d2 d3 : ℕ) (h0 : d0 < 65536) (h1 : d1 < 65536)
    (h2 : d2 < 65536) (h3 : d3 < 65536) :
    (∀ i < 4, ((d3 <<< 48 ||| d2 <<< 32 ||| d1 <<< 16 ||| d0) >>> (16 * i)) % 65536 =
      [d0, d1, d2, d3].getD i 0) := by
  intro i hi
  rw [pack4_eq d0 d1 d2 d3 h0 h1 h2 h3, Nat.shiftRight_eq_div_pow]
  interval_cases i <;> norm_num <;> omega


/-! ### The kernels -/

/-- One accumulator step of the generic `gemm<RM, RN>` (sgemm.cpp lines
795-824, the `__AVX2__` branch):
`Cv[j][i] = madd(set1(unhalf(A.d)·unhalf(B.d)), updot(sign(a,a), sign(b,a)), Cv[j][i])`. -/
def qgemmStep {F F8 : Type} (Q : QOps F F8) (M : QMats) (ii jj l j i : ℕ)
    (acc : F8) : F8 :=
  let av := M.Av (M.lda * (ii + i) + l)
  let bv := M.Bv (M.ldb * (jj + j) + l)
  Q.madd8 (Q.fmul (Q.fp16 (M.Ad (M.lda * (ii + i) + l)))
                  (Q.fp16 (M.Bd (M.ldb * (jj + j) + l))))
    (updot_fallback Q.cvt (mm256_sign_epi8 av av) (mm256_sign_epi8 bv av))
    acc

/-- Writing the accumulators to C (identical final loops of all three
kernels): cell `(ii+i, jj+j)` receives `hsum(Cv[j][i])`.  A cell is the
`(row, column)` pair of the C element `C[ldc·(jj+j) + (ii+i)]`. -/
def tileStore {F F8 : Type} (Q : QOps F F8) (RM RN ii jj : ℕ)
    (Cv : ℕ → ℕ → F8) : List ((ℕ × ℕ) × F) :=
  (List.range RN).flatMap fun j =>
    (List.range RM).map fun i => ((ii + i, jj + j), Q.hsum8 (Cv j i))

/-- The flat job range `[duty·ith, min(duty·ith + duty, tiles))` a worker
claims (identical in all three kernels, sgemm.cpp lines 783-790). -/
def qJobs (nth ith tiles : ℕ) : List ℕ :=
  let duty := (tiles + nth - 1) / nth
  let start := duty * ith
  let end1 := if start + duty > tiles then tiles else start + duty
  List.range' start (end1 - start)

/-- The generic quantised kernel `gemm<RM, RN>(m0, m, n0, n)` for worker
`ith` of `nth`: the list of `(cell, value)` writes it performs, in order. -/
def qgemm {F F8 : Type} (Q : QOps F F8) (M : QMats) (ith nth : ℕ)
    (RM RN m0 m n0 n : ℕ) : List ((ℕ × ℕ) × F) :=
  let ytiles := (m - m0) / RM
  let xtiles := (n - n0) / RN
  let tiles := xtiles * ytiles
  (qJobs nth ith tiles).flatMap fun job =>
    let ii := m0 + job / xtiles * RM
    let jj := n0 + job % xtiles * RN
    let Cv := (List.range M.k).foldl
      (fun Cv l =>
        (List.range RN).foldl (fun C1 jx =>
          (List.range RM).foldl (fun C2 ix =>
            upd2 C2 jx ix (qgemmStep Q M ii jj l jx ix (C2 jx ix))) C1) Cv)
      (fun _ _ => Q.zero8)
    tileStore Q RM RN ii jj Cv

/-- The packed word `(A[ii+3].d << 48) | (A[ii+2].d << 32) |
(A[ii+1].d << 16) | A[ii+0].d` of `gemm4xN` (sgemm.cpp line 685). -/
def aDelta4 (M : QMats) (ii l : ℕ) : ℕ :=
  M.Ad (M.lda * (ii + 3) + l) <<< 48 ||| M.Ad (M.lda * (ii + 2) + l) <<< 32 |||
    M.Ad (M.lda * (ii + 1) + l) <<< 16 ||| M.Ad (M.lda * (ii + 0) + l)

/-- The packed word of `gemmMx4` over the four B deltas (sgemm.cpp line 739). -/
def bDelta4 (M : QMats) (jj l : ℕ) : ℕ :=
  M.Bd (M.ldb * (jj + 3) + l) <<< 48 ||| M.Bd (M.ldb * (jj + 2) + l) <<< 32 |||
    M.Bd (M.ldb * (jj + 1) + l) <<< 16 ||| M.Bd (M.ldb * (jj + 0) + l)

/-- Lane `i` of `_mm_cvtph_ps(_mm_set_epi64x(0, w))`: the f16 value of bits
`[16i, 16i+16)` of `w`. -/
def cvtphLane {F F8 : Type} (Q : QOps F F8) (w i : ℕ) : F :=
  Q.fp16 ((w >>> (16 * i)) % 65536)

/-- One accumulator step of `gemm4xN<RN>` (sgemm.cpp lines 684-714): the four
delta products `_mm_mul_ps(da, db)` are broadcast per row through
`_mm256_castps128_ps256` / `_mm256_permute2f128_ps(·,·,0)` /
`_mm256_shuffle_ps(dvec, dvec, {0,85,170,255})`, so row `i` uses the single
f32 scalar `cvtph(a_delta)[i] · unhalf(B.d)`. -/
def qgemm4xNStep {F F8 : Type} (Q : QOps F F8) (M : QMats) (ii jj l j i : ℕ)
    (acc : F8) : F8 :=
  let av := M.Av (M.lda * (ii + i) + l)
  let bv := M.Bv (M.ldb * (jj + j) + l)
  Q.madd8 (Q.fmul (cvtphLane Q (aDelta4 M ii l) i)
                  (Q.fp16 (M.Bd (M.ldb * (jj + j) + l))))
    (updot_fallback Q.cvt (mm256_sign_epi8 av av) (mm256_sign_epi8 bv av))
    acc

/-- `gemm4xN<RN>(m0, m, n0, n)` (sgemm.cpp lines 670-721) for worker `ith`:
the list of `(cell, value)` writes. -/
def qgemm4xN {F F8 : Type} (Q : QOps F F8) (M : QMats) (ith nth : ℕ)
    (RN m0 m n0 n : ℕ) : List ((ℕ × ℕ) × F) :=
  let ytiles := (m - m0) / 4
  let xtiles := (n - n0) / RN
  let tiles := xtiles * ytiles
  (qJobs nth ith tiles).flatMap fun job =>
    let ii := m0 + job / xtiles * 4
    let jj := n0 + job % xtiles * RN
    let Cv := (List.range M.k).foldl
      (fun Cv l =>
        (List.range RN).foldl (fun C1 jx =>
          (List.range 4).foldl (fun C2 ix =>
            upd2 C2 jx ix (qgemm4xNStep Q M ii jj l jx ix (C2 jx ix))) C1) Cv)
      (fun _ _ => Q.zero8)
    tileStore Q 4 RN ii jj Cv

/-- One accumulator step of `gemmMx4<RM>` (sgemm.cpp lines 738-772): column
`j` uses the single f32 scalar `unhalf(A.d) · cvtph(b_delta)[j]`. -/
def qgemmMx4Step {F F8 : Type} (Q : QOps F F8) (M : QMats) (ii jj l j i : ℕ)
    (acc : F8) : F8 :=
  let av := M.Av (M.lda * (ii + i) + l)
  let bv := M.Bv (M.ldb * (jj + j) + l)
  Q.madd8 (Q.fmul (Q.fp16 (M.Ad (M.lda * (ii + i) + l)))
                  (cvtphLane Q (bDelta4 M jj l) j))
    (updot_fallback Q.cvt (mm256_sign_epi8 av av) (mm256_sign_epi8 bv av))
    acc

/-- `gemmMx4<RM>(m0, m, n0, n)` (sgemm.cpp lines 725-778) for worker `ith`:
the list of `(cell, value)` writes.  The loop nest runs `i` outside `j`. -/
def qgemmMx4 {F F8 : Type} (Q : QOps F F8) (M : QMats) (ith nth : ℕ)
    (RM m0 m n0 n : ℕ) : List ((ℕ × ℕ) × F) :=
  let ytiles := (m - m0) / RM
  let xtiles := (n - n0) / 4
  let tiles := xtiles * ytiles
  (qJobs nth ith tiles).flatMap fun job =>
    let ii := m0 + job / xtiles * RM
    let jj := n0 + job % xtiles * 4
    let Cv := (List.range M.k).foldl
      (fun Cv l =>
        (List.range RM).foldl (fun C1 ix =>
          (List.range 4).foldl (fun C2 jx =>
            upd2 C2 jx ix (qgemmMx4Step Q M ii jj l jx ix (C2 jx ix))) C1) Cv)
      (fun _ _ => Q.zero8)
    tileStore Q RM 4 ii jj Cv


/-! ## C9: the fast quantised kernels match the generic kernel -/

theorem tileStore_congr {F F8 : Type} (Q : QOps F F8) (RM RN ii jj : ℕ)
    (Cv Cv' : ℕ → ℕ → F8) (h : ∀ j < RN, ∀ i < RM, Cv j i = Cv' j i) :
    tileStore Q RM RN ii jj Cv = tileStore Q RM RN ii jj Cv' := by
  unfold tileStore
  refine List.flatMap_congr fun j hj => ?_
  refine List.map_congr_left fun i hi => ?_
  rw [h j (List.mem_range.mp hj) i (List.mem_range.mp hi)]

/-- C9, first half: `gemm4xN<RN>` writes the same `(cell, value)` list as
`gemm<4, RN>`. -/
theorem qgemm4xN_eq_qgemm {F F8 : Type} (Q : QOps F F8) (M : QMats)
    (hAd : ∀ a, M.Ad a < 65536) (ith nth RN m0 m n0 n : ℕ) :
    qgemm4xN Q M ith nth RN m0 m n0 n = qgemm Q M ith nth 4 RN m0 m n0 n := by
  unfold qgemm4xN qgemm
  refine List.flatMap_congr fun job _ => ?_
  refine tileStore_congr Q 4 RN _ _ _ _ fun j hj i hi => ?_
  rw [foldl_l_eval (qgemm4xNStep Q M _ _) RN 4 (List.range M.k) _ j i hj hi,
    foldl_l_eval (qgemmStep Q M _ _) RN 4 (List.range M.k) _ j i hj hi]
  refine List.foldl_ext _ _ _ fun acc l _ => ?_
  unfold qgemm4xNStep qgemmStep
  unfold cvtphLane aDelta4
  rw [pack4_lane _ _ _ _ (hAd _) (hAd _) (hAd _) (hAd _) i hi]
  interval_cases i <;> rfl

/-- C9, second half: `gemmMx4<RM>` writes the same `(cell, value)` list as
`gemm<RM, 4>`. -/
theorem qgemmMx4_eq_qgemm {F F8 : Type} (Q : QOps F F8) (M : QMats)
    (hBd : ∀ a, M.Bd a < 65536) (ith nth RM m0 m n0 n : ℕ) :
    qgemmMx4 Q M ith nth RM m0 m n0 n = qgemm Q M ith nth RM 4 m0 m n0 n := by
  unfold qgemmMx4 qgemm
  refine List.flatMap_congr fun job _ => ?_
  refine tileStore_congr Q RM 4 _ _ _ _ fun j hj i hi => ?_
  rw [foldl_l_eval_swapped (qgemmMx4Step Q M _ _) 4 RM (List.range M.k) _ j i hj hi,
    foldl_l_eval (qgemmStep Q M _ _) 4 RM (List.range M.k) _ j i hj hi]
  refine List.foldl_ext _ _ _ fun acc l _ => ?_
  unfold qgemmMx4Step qgemmStep
  unfold cvtphLane bDelta4
  rw [pack4_lane _ _ _ _ (hBd _) (hBd _) (hBd _) (hBd _) j hj]
  interval_cases j <;> rfl

/-- C9: for every dispatched region and every `RN` (resp. `RM`) in
`{1, 2, 3, 4}`, `gemm4xN<RN>` and `gemmMx4<RM>` write the same values to C as
the generic `gemm<4, RN>` (resp. `gemm<RM, 4>`): packing the four per-block
f16 deltas into one 64-bit word and converting them with a single
half-to-float conversion yields the same four f32 delta products as
converting each delta individually. -/
theorem quant_fast_kernels_match_generic {F F8 : Type} (Q : QOps F F8)
    (M : QMats) (hAd : ∀ a, M.Ad a < 65536) (hBd : ∀ a, M.Bd a < 65536)
    (ith nth RN RM m0 m n0 n : ℕ)
    (hRN : 1 ≤ RN ∧ RN ≤ 4) (hRM : 1 ≤ RM ∧ RM ≤ 4) :
    qgemm4xN Q M ith nth RN m0 m n0 n = qgemm Q M ith nth 4 RN m0 m n0 n ∧
      qgemmMx4 Q M ith nth RM m0 m n0 n = qgemm Q M ith nth RM 4 m0 m n0 n :=
  ⟨qgemm4xN_eq_qgemm Q M hAd ith nth RN m0 m n0 n,
   qgemmMx4_eq_qgemm Q M hBd ith nth RM m0 m n0 n⟩


/-- Witness for C9 at a concrete interpretation and concrete operands. -/
theorem quant_fast_kernels_match_generic_witness :
    (∀ a, (QMats.mk (fun _ => 3) (fun _ _ => 1) (fun _ => 5) (fun _ _ => 2) 1 1 1).Ad a < 65536) ∧
    (∀ a, (QMats.mk (fun _ => 3) (fun _ _ => 1) (fun _ => 5) (fun _ _ => 2) 1 1 1).Bd a < 65536) ∧
    (1 ≤ 2 ∧ 2 ≤ 4) ∧ (1 ≤ 3 ∧ 3 ≤ 4) ∧
    (qgemm4xN (QOps.mk id (· * ·) (fun v => (v 0).natAbs) (fun c u a => c + u + a) id 0)
        (QMats.mk (fun _ => 3) (fun _ _ => 1) (fun _ => 5) (fun _ _ => 2) 1 1 1)
        0 1 2 0 4 0 4 =
      qgemm (QOps.mk id (· * ·) (fun v => (v 0).natAbs) (fun c u a => c + u + a) id 0)
        (QMats.mk (fun _ => 3) (fun _ _ => 1) (fun _ => 5) (fun _ _ => 2) 1 1 1)
        0 1 4 2 0 4 0 4 ∧
    qgemmMx4 (QOps.mk id (· * ·) (fun v => (v 0).natAbs) (fun c u a => c + u + a) id 0)
        (QMats.mk (fun _ => 3) (fun _ _ => 1) (fun _ => 5) (fun _ _ => 2) 1 1 1)
        0 1 3 0 4 0 4 =
      qgemm (QOps.mk id (· * ·) (fun v => (v 0).natAbs) (fun c u a => c + u + a) id 0)
        (QMats.mk (fun _ => 3) (fun _ _ => 1) (fun _ => 5) (fun _ _ => 2) 1 1 1)
        0 1 3 4 0 4 0 4) :=
  ⟨fun _ => by norm_num, fun _ => by norm_num, ⟨by decide, by decide⟩, ⟨by decide, by decide⟩,
    quant_fast_kernels_match_generic _ _ (fun _ => by norm_num) (fun _ => by norm_num)
      0 1 2 3 0 4 0 4 ⟨by decide, by decide⟩ ⟨by decide, by decide⟩⟩


/-! ## Floating-point tile engine: kernels and scheduling
(sgemm.cpp lines 331-489)

As for the quantised kernels, f32/vector values are abstract: `V` is the
vector type loaded from the operands, `D` the accumulator type, `F` the f32
scalar type. -/

/-- The abstract operations of the floating-point engine.  `loadA addr`
models `load<V>(A + addr)` (and `loadB` for `B`): the dtype-specific widening
load applied to the bound operand pointer. -/
structure FOps (V D F : Type) where
  loadA : ℕ → V
  loadB : ℕ → V
  madd : V → V → D → D
  hsum : D → F
  zeroD : D

/-- The values taken by `x` in `for (x = a; x < b; x += s)`. -/
def forSteps (a b s : ℕ) : List ℕ :=
  (List.range ((b - a + (s - 1)) / s)).map (fun t => a + s * t)

/-- The value of `x` after `for (x = a; x < b; x += s)` finishes. -/
def forStepsEnd (a b s : ℕ) : ℕ := a + s * ((b - a + (s - 1)) / s)

/-- One accumulator update of `gemm_bloc<RM, RN>` (sgemm.cpp lines 396-423):
`Cv[j][i] = madd(load(A + lda·(ii+i) + l), load(B + ldb·(jj+j) + l), Cv[j][i])`.
Both `constexpr` branches of the loop nest perform exactly this madd per
`(j, i)`; they differ only in which pure loads are hoisted into locals. -/
def fpBlocStep {V D F : Type} (O : FOps V D F) (lda ldb ii jj l j i : ℕ)
    (acc : D) : D :=
  O.madd (O.loadA (lda * (ii + i) + l)) (O.loadB (ldb * (jj + j) + l)) acc

/-- The accumulator array of `gemm_bloc<RM, RN>(ii, jj)` after the k-loop:
zero-initialised, then for `l = 0, KN, …`, each `(j, i)` updated once per
iteration — with the `RM ≤ RN` loop nest or the swapped one. -/
def fpBlocCv {V D F : Type} (O : FOps V D F) (lda ldb k KN RM RN ii jj : ℕ) :
    ℕ → ℕ → D :=
  (forSteps 0 k KN).foldl
    (fun Cv l =>
      if RM ≤ RN then
        (List.range RN).foldl (fun C1 jx =>
          (List.range RM).foldl (fun C2 ix =>
            upd2 C2 jx ix (fpBlocStep O lda ldb ii jj l jx ix (C2 jx ix))) C1) Cv
      else
        (List.range RM).foldl (fun C1 ix =>
          (List.range RN).foldl (fun C2 jx =>
            upd2 C2 jx ix (fpBlocStep O lda ldb ii jj l jx ix (C2 jx ix))) C1) Cv)
    (fun _ _ => O.zeroD)

/-- The `(cell, value)` writes of `gemm_bloc<RM, RN>(ii, jj)` (sgemm.cpp
lines 424-426): cell `(ii+i, jj+j)` receives `hsum(Cv[j][i])`. -/
def fpBlocWrites {V D F : Type} (O : FOps V D F) (lda ldb k KN RM RN ii jj : ℕ) :
    List ((ℕ × ℕ) × F) :=
  (List.range RN).flatMap fun j =>
    (List.range RM).map fun i =>
      ((ii + i, jj + j), O.hsum (fpBlocCv O lda ldb k KN RM RN ii jj j i))

/-- The reduction every output cell `(r, c)` receives: the strict
left-to-right k-loop of madds over `l = 0, KN, …`, then `hsum`.  This value
depends only on the global cell coordinates, not on the tile shape that
computed it. -/
def fpCellVal {V D F : Type} (O : FOps V D F) (lda ldb k KN r c : ℕ) : F :=
  O.hsum ((forSteps 0 k KN).foldl
    (fun acc l => O.madd (O.loadA (lda * r + l)) (O.loadB (ldb * c + l)) acc)
    O.zeroD)

/-- The writes of one job of `tinyBLAS::gemm` (sgemm.cpp lines 451-472): job
id `J` decodes to row block `(J % ytiles)·RM·BM` and column stripe
`J / ytiles`; within the stripe, `bi` steps by `RM` and `jj` first walks the
full-`RN` tiles up to `jj1`, then the `RN−1` tiles up to `jj2`. -/
def fpJobWrites {V D F : Type} (O : FOps V D F)
    (lda ldb k KN RM RN BM SIZE_BN jj_BN jj_RN ytiles : ℕ) (job : ℕ) :
    List ((ℕ × ℕ) × F) :=
  let ii := job % ytiles * (RM * BM)
  let jb := job / ytiles
  let jr0 := fpBLOC_POS jb jj_BN SIZE_BN
  let jrN := fpBLOC_POS (jb + 1) jj_BN SIZE_BN
  let jj0 := fpBLOC_POS jr0 jj_RN RN
  let jj2 := fpBLOC_POS jrN jj_RN RN
  let jj1 := if jj2 < jj_RN * RN then jj2 else jj_RN * RN
  (forSteps 0 (BM * RM) RM).flatMap fun bi =>
    (forSteps jj0 jj1 RN).flatMap
      (fun jj => fpBlocWrites O lda ldb k KN RM RN (ii + bi) jj) ++
    (if 1 < RN then
      (forSteps (forStepsEnd jj0 jj1 RN) jj2 (RN - 1)).flatMap
        (fun jj => fpBlocWrites O lda ldb k KN RM (RN - 1) (ii + bi) jj)
    else [])

/-- The writes of `tinyBLAS::gemm<RM, RN, BM>(m, n, BN)` collected over all
workers (sgemm.cpp lines 429-479).

Modelled from the spec: `ggml_threadpool_chunk_set` / `ggml_threadpool_chunk_add`
and `ggml_barrier` are declared in `ggml-cpu-impl.h` but not defined under
`src/`; per spec.md sections 4.6 and 6, thread 0 stores `nth` into the shared
atomic counter before the opening barrier, each worker first processes job id
`ith` and then repeatedly claims `chunk_add(pool, 1) → previous` until the
claimed id reaches `nb_job`.  Collectively the `nth` workers therefore
process job ids `0, 1, …, nb_job−1`, each exactly once, which is the job
list embedded here. -/
def fpGemmWrites {V D F : Type} (O : FOps V D F)
    (lda ldb k KN RM RN BM BN m n : ℕ) : List ((ℕ × ℕ) × F) :=
  let ytiles := m / (RM * BM)
  let xtiles := (n + RN - 1) / RN
  let jj_RN := xtiles - (xtiles * RN - n)
  let NB_BN := gemmNB_BN BN xtiles
  let SIZE_BN := gemmSIZE_BN NB_BN xtiles
  let jj_BN := gemmJJ_BN NB_BN SIZE_BN xtiles
  let nb_job := ytiles * NB_BN
  (List.range nb_job).flatMap
    (fpJobWrites O lda ldb k KN RM RN BM SIZE_BN jj_BN jj_RN ytiles)

/-- `tinyBLAS::mnpack<RM, RN, BM>(m, n, SIZE_N, BN)` (sgemm.cpp lines
382-393): find `RN = SIZE_N` by structural recursion on the template
parameter; `none` models the `GGML_ASSERT(false)` at `RN = 1`. -/
def fpMnpack {V D F : Type} (O : FOps V D F)
    (lda ldb k KN RM BM BN m n SIZE_N : ℕ) :
    ℕ → Option (List ((ℕ × ℕ) × F))
  | 0 => none
  | RN + 1 =>
    if SIZE_N = RN + 1 then
      some (fpGemmWrites O lda ldb k KN RM (RN + 1) BM BN m n)
    else
      fpMnpack O lda ldb k KN RM BM BN m n SIZE_N RN

/-- `tinyBLAS::matmul(m, n)` (sgemm.cpp lines 341-379): the returned boolean
together with the `(cell, value)` writes performed, collected over all
workers.  `none` models an aborted `GGML_ASSERT`. -/
def tinyMatmul {V D F : Type} (O : FOps V D F)
    (regs32 : Bool) (lda ldb k KN nth m n : ℕ) :
    Option (Bool × List ((ℕ × ℕ) × F)) :=
  if k % KN ≠ 0 then some (false, [])
  else if regs32 then
    if m % 16 = 0 ∧ m / 16 ≥ nth then
      (fpMnpack O lda ldb k KN 4 4 12 m n (fpBLOCK_SIZE 6 n) 6).map ((true, ·))
    else if m % 8 = 0 then
      (fpMnpack O lda ldb k KN 4 2 12 m n (fpBLOCK_SIZE 6 n) 6).map ((true, ·))
    else if m % 4 = 0 then
      (fpMnpack O lda ldb k KN 4 1 12 m n (fpBLOCK_SIZE 6 n) 6).map ((true, ·))
    else some (false, [])
  else
    if m % 16 = 0 ∧ m / 16 ≥ nth then
      (fpMnpack O lda ldb k KN 4 4 24 m n (fpBLOCK_SIZE 3 n) 3).map ((true, ·))
    else if m % 8 = 0 then
      (fpMnpack O lda ldb k KN 4 2 24 m n (fpBLOCK_SIZE 3 n) 3).map ((true, ·))
    else if m % 4 = 0 then
      (fpMnpack O lda ldb k KN 4 1 24 m n (fpBLOCK_SIZE 3 n) 3).map ((true, ·))
    else some (false, [])


/-! ### Loop and block-position arithmetic -/

theorem forSteps_of_le (a b s : ℕ) (h : b ≤ a) : forSteps a b s = [] := by
  unfold forSteps
  have : b - a = 0 := by omega
  rw [this]
  rcases Nat.eq_zero_or_pos s with h0 | h1
  · simp [h0]
  · rw [Nat.div_eq_of_lt (by omega)]
    rfl

theorem forStepsEnd_of_le (a b s : ℕ) (h : b ≤ a) : forStepsEnd a b s = a := by
  unfold forStepsEnd
  have : b - a = 0 := by omega
  rw [this]
  rcases Nat.eq_zero_or_pos s with h0 | h1
  · simp [h0]
  · rw [Nat.div_eq_of_lt (by omega)]
    simp

theorem steps_count_exact (t s : ℕ) (hs : 1 ≤ s) : (t * s + (s - 1)) / s = t := by
  rw [Nat.mul_comm t s, Nat.add_comm,
    Nat.add_mul_div_left _ _ (show 0 < s by omega),
    Nat.div_eq_of_lt (show s - 1 < s by omega)]
  omega

theorem forSteps_exact (a t s : ℕ) (hs : 1 ≤ s) :
    forSteps a (a + t * s) s = (List.range t).map (fun u => a + s * u) := by
  unfold forSteps
  have h2 : a + t * s - a + (s - 1) = t * s + (s - 1) := by omega
  rw [h2, steps_count_exact t s hs]

theorem forStepsEnd_exact (a t s : ℕ) (hs : 1 ≤ s) :
    forStepsEnd a (a + t * s) s = a + t * s := by
  unfold forStepsEnd
  have h2 : a + t * s - a + (s - 1) = t * s + (s - 1) := by omega
  rw [h2, steps_count_exact t s hs]
  ring

theorem fpBLOC_POS_zero (ibN bs : ℕ) : fpBLOC_POS 0 ibN bs = 0 := by
  unfold fpBLOC_POS
  split
  · simp
  · rename_i h
    have : ibN = 0 := by omega
    subst this
    simp

theorem fpBLOC_POS_of_le (r ibN bs : ℕ) (h : r ≤ ibN) :
    fpBLOC_POS r ibN bs = r * bs := by
  unfold fpBLOC_POS
  split
  · rfl
  · have : r = ibN := by omega
    subst this
    simp

theorem fpBLOC_POS_of_ge (r ibN bs : ℕ) (h : ibN ≤ r) :
    fpBLOC_POS r ibN bs = ibN * bs + (r - ibN) * (bs - 1) := by
  unfold fpBLOC_POS
  split
  · have : r = ibN := by omega
    subst this
    simp
  · rfl

theorem fpBLOC_POS_succ (r ibN bs : ℕ) :
    fpBLOC_POS (r + 1) ibN bs =
      fpBLOC_POS r ibN bs + (if r < ibN then bs else bs - 1) := by
  unfold fpBLOC_POS
  by_cases h1 : r < ibN
  · by_cases h2 : r + 1 < ibN
    · simp only [h1, h2, if_true]
      ring
    · have : ibN = r + 1 := by omega
      subst this
      simp [h1, h2, Nat.succ_mul]
  · have h2 : ¬ r + 1 < ibN := by omega
    simp only [h1, h2, if_false]
    have : r + 1 - ibN = (r - ibN) + 1 := by omega
    rw [this, Nat.succ_mul]
    ring

theorem fpBLOC_POS_le_succ (r ibN bs : ℕ) :
    fpBLOC_POS r ibN bs ≤ fpBLOC_POS (r + 1) ibN bs := by
  rw [fpBLOC_POS_succ]
  omega

theorem fpBLOC_POS_mono (ibN bs : ℕ) : Monotone (fpBLOC_POS · ibN bs) :=
  monotone_nat_of_le_succ (fun r => fpBLOC_POS_le_succ r ibN bs)

/-- Locate the interval of a monotone step sequence containing `c`. -/
theorem exists_interval (f : ℕ → ℕ) (hmono : ∀ i, f i ≤ f (i + 1)) :
    ∀ (N c : ℕ), f 0 ≤ c → c < f N → ∃ t < N, f t ≤ c ∧ c < f (t + 1) := by
  intro N
  induction N with
  | zero => intro c h0 hc; omega
  | succ N ih =>
    intro c h0 hc
    by_cases h : c < f N
    · obtain ⟨t, ht, h1, h2⟩ := ih c h0 h
      exact ⟨t, by omega, h1, h2⟩
    · exact ⟨N, by omega, by omega, hc⟩

/-- Concatenating the intervals of a monotone step sequence. -/
theorem flatMap_range'_telescope (f : ℕ → ℕ) (hmono : ∀ i, f i ≤ f (i + 1)) :
    ∀ (N a : ℕ),
      (List.range' a N).flatMap (fun i => List.range' (f i) (f (i + 1) - f i)) =
        List.range' (f a) (f (a + N) - f a) := by
  have hm : Monotone f := monotone_nat_of_le_succ hmono
  intro N
  induction N with
  | zero => intro a; simp
  | succ N ih =>
    intro a
    rw [List.range'_succ, List.flatMap_cons, ih (a + 1)]
    have h1 : f a ≤ f (a + 1) := hmono a
    have h2 : f (a + 1) ≤ f (a + 1 + N) := hm (by omega)
    have h3 : f (a + 1) = f a + (f (a + 1) - f a) := by omega
    rw [show a + (N + 1) = a + 1 + N from by omega]
    have e1 : f a + (f (a + 1) - f a) - f a = f (a + 1) - f a := by omega
    rw [h3, e1,
      List.range'_append_1 (f a) (f (a + 1) - f a)
        (f (a + 1 + N) - (f a + (f (a + 1) - f a)))]
    congr 1
    omega

theorem sum_map_range'_telescope (f : ℕ → ℕ) (hmono : ∀ i, f i ≤ f (i + 1)) :
    ∀ (N a : ℕ),
      ((List.range' a N).map (fun i => f (i + 1) - f i)).sum = f (a + N) - f a := by
  have hm : Monotone f := monotone_nat_of_le_succ hmono
  intro N
  induction N with
  | zero => intro a; simp
  | succ N ih =>
    intro a
    rw [List.range'_succ, List.map_cons, List.sum_cons, ih (a + 1)]
    have h1 : f a ≤ f (a + 1) := hmono a
    have h2 : f (a + 1) ≤ f (a + 1 + N) := hm (by omega)
    rw [show a + (N + 1) = a + 1 + N from by omega]
    omega


/-- The two-phase `jj` loop of one stripe (sgemm.cpp lines 461-471) visits
exactly the tile start columns `fpBLOC_POS r jj_RN RN` for `r ∈ [jr0, jrN)`,
the first `jj_RN` tiles with width `RN` and the rest with width `RN - 1`. -/
theorem stripe_iteration {α : Type} (W : ℕ → ℕ → List α)
    (RN jj_RN xtiles : ℕ) (hRN : 1 ≤ RN) (hjx : jj_RN ≤ xtiles)
    (hRN1 : RN = 1 → xtiles ≤ jj_RN)
    (jr0 jrN : ℕ) (h0N : jr0 ≤ jrN) (hNx : jrN ≤ xtiles) :
    (forSteps (fpBLOC_POS jr0 jj_RN RN)
        (if fpBLOC_POS jrN jj_RN RN < jj_RN * RN
          then fpBLOC_POS jrN jj_RN RN else jj_RN * RN) RN).flatMap
      (fun jj => W RN jj) ++
    (if 1 < RN then
      (forSteps
          (forStepsEnd (fpBLOC_POS jr0 jj_RN RN)
            (if fpBLOC_POS jrN jj_RN RN < jj_RN * RN
              then fpBLOC_POS jrN jj_RN RN else jj_RN * RN) RN)
          (fpBLOC_POS jrN jj_RN RN) (RN - 1)).flatMap
        (fun jj => W (RN - 1) jj)
    else []) =
    (List.range' jr0 (jrN - jr0)).flatMap
      (fun r => W (if r < jj_RN then RN else RN - 1) (fpBLOC_POS r jj_RN RN)) := by
  by_cases hA : jrN ≤ jj_RN
  · -- all tiles are full-width
    have e2 : fpBLOC_POS jrN jj_RN RN = jrN * RN := fpBLOC_POS_of_le _ _ _ hA
    have e0 : fpBLOC_POS jr0 jj_RN RN = jr0 * RN :=
      fpBLOC_POS_of_le _ _ _ (le_trans h0N hA)
    have hmul : jrN * RN ≤ jj_RN * RN := Nat.mul_le_mul_right RN hA
    have e1 : (if fpBLOC_POS jrN jj_RN RN < jj_RN * RN
        then fpBLOC_POS jrN jj_RN RN else jj_RN * RN) = jrN * RN := by
      rw [e2]; split <;> omega
    have hsub : (jrN - jr0) * RN = jrN * RN - jr0 * RN := Nat.sub_mul _ _ _
    have hle : jr0 * RN ≤ jrN * RN := Nat.mul_le_mul_right RN h0N
    have esum : jr0 * RN + (jrN - jr0) * RN = jrN * RN := by omega
    rw [e0, e1]
    rw [show jrN * RN = jr0 * RN + (jrN - jr0) * RN from esum.symm]
    rw [forSteps_exact _ _ _ hRN, forStepsEnd_exact _ _ _ hRN, esum]
    have hemp : forSteps (jrN * RN) (fpBLOC_POS jrN jj_RN RN) (RN - 1) = [] := by
      rw [e2]; exact forSteps_of_le _ _ _ (le_refl _)
    rw [hemp]
    simp only [List.flatMap_nil, ite_self, List.append_nil]
    rw [List.flatMap_map, List.range'_eq_map_range, List.flatMap_map]
    refine List.flatMap_congr fun u hu => ?_
    have hu' : u < jrN - jr0 := List.mem_range.mp hu
    have hr : jr0 + u < jj_RN := by omega
    have hcol : fpBLOC_POS (jr0 + u) jj_RN RN = (jr0 + u) * RN :=
      fpBLOC_POS_of_le _ _ _ (by omega)
    simp only [Function.comp, hr, if_pos, hcol]
    congr 1
    ring
  · -- some RN-1 tiles are visited, so RN ≥ 2
    push_neg at hA
    have hRN2 : 2 ≤ RN := by
      rcases Nat.lt_or_ge RN 2 with h | h
      · exfalso
        have : RN = 1 := by omega
        have := hRN1 this
        omega
      · exact h
    have e2 : fpBLOC_POS jrN jj_RN RN = jj_RN * RN + (jrN - jj_RN) * (RN - 1) :=
      fpBLOC_POS_of_ge _ _ _ (by omega)
    have e1 : (if fpBLOC_POS jrN jj_RN RN < jj_RN * RN
        then fpBLOC_POS jrN jj_RN RN else jj_RN * RN) = jj_RN * RN := by
      rw [e2]; split <;> omega
    rw [e1]
    by_cases hB : jj_RN ≤ jr0
    · -- the stripe lies entirely in the RN-1 zone
      have e0 : fpBLOC_POS jr0 jj_RN RN = jj_RN * RN + (jr0 - jj_RN) * (RN - 1) :=
        fpBLOC_POS_of_ge _ _ _ hB
      have hemp : forSteps (fpBLOC_POS jr0 jj_RN RN) (jj_RN * RN) RN = [] := by
        refine forSteps_of_le _ _ _ ?_
        rw [e0]; omega
      have hend : forStepsEnd (fpBLOC_POS jr0 jj_RN RN) (jj_RN * RN) RN =
          fpBLOC_POS jr0 jj_RN RN := by
        refine forStepsEnd_of_le _ _ _ ?_
        rw [e0]; omega
      rw [hemp, hend]
      simp only [List.flatMap_nil, List.nil_append, if_pos (by omega : 1 < RN)]
      have hdist : (jrN - jj_RN) * (RN - 1) =
          (jr0 - jj_RN) * (RN - 1) + (jrN - jr0) * (RN - 1) := by
        rw [← Nat.add_mul]
        congr 1
        omega
      have e2' : fpBLOC_POS jrN jj_RN RN =
          fpBLOC_POS jr0 jj_RN RN + (jrN - jr0) * (RN - 1) := by
        rw [e2, e0, hdist]; ring
      rw [e2', forSteps_exact _ _ _ (by omega)]
      rw [List.range'_eq_map_range, List.flatMap_map, List.flatMap_map]
      refine List.flatMap_congr fun u hu => ?_
      have hu' : u < jrN - jr0 := List.mem_range.mp hu
      have hr : ¬ (jr0 + u < jj_RN) := by omega
      have hcol : fpBLOC_POS (jr0 + u) jj_RN RN =
          jj_RN * RN + (jr0 + u - jj_RN) * (RN - 1) :=
        fpBLOC_POS_of_ge _ _ _ (by omega)
      have hdist2 : (jr0 + u - jj_RN) * (RN - 1) =
          (jr0 - jj_RN) * (RN - 1) + u * (RN - 1) := by
        rw [← Nat.add_mul]
        congr 1
        omega
      simp only [Function.comp, hr, if_neg, hcol, e0, hdist2]
      congr 1
      ring
    · -- the stripe straddles the boundary
      push_neg at hB
      have e0 : fpBLOC_POS jr0 jj_RN RN = jr0 * RN := fpBLOC_POS_of_le _ _ _ (by omega)
      have hsub : (jj_RN - jr0) * RN = jj_RN * RN - jr0 * RN := Nat.sub_mul _ _ _
      have hle : jr0 * RN ≤ jj_RN * RN := Nat.mul_le_mul_right RN (by omega)
      have esum : jr0 * RN + (jj_RN - jr0) * RN = jj_RN * RN := by omega
      rw [e0, show jj_RN * RN = jr0 * RN + (jj_RN - jr0) * RN from esum.symm,
        forSteps_exact _ _ _ hRN, forStepsEnd_exact _ _ _ hRN, esum]
      have e2' : fpBLOC_POS jrN jj_RN RN = jj_RN * RN + (jrN - jj_RN) * (RN - 1) := e2
      rw [e2', forSteps_exact _ _ _ (by omega), if_pos (by omega : 1 < RN)]
      have hcount : jrN - jr0 = (jrN - jj_RN) + (jj_RN - jr0) := by omega
      rw [hcount, ← List.range'_append_1 jr0 (jj_RN - jr0) (jrN - jj_RN),
        show jr0 + (jj_RN - jr0) = jj_RN from by omega, List.flatMap_append]
      congr 1
      · rw [List.flatMap_map, List.range'_eq_map_range, List.flatMap_map]
        refine List.flatMap_congr fun u hu => ?_
        have hu' : u < jj_RN - jr0 := List.mem_range.mp hu
        have hr : jr0 + u < jj_RN := by omega
        have hcol : fpBLOC_POS (jr0 + u) jj_RN RN = (jr0 + u) * RN :=
          fpBLOC_POS_of_le _ _ _ (by omega)
        simp only [Function.comp, hr, if_pos, hcol]
        congr 1
        ring
      · rw [List.flatMap_map, List.range'_eq_map_range, List.flatMap_map]
        refine List.flatMap_congr fun u hu => ?_
        have hr : ¬ (jj_RN + u < jj_RN) := by omega
        have hcol : fpBLOC_POS (jj_RN + u) jj_RN RN =
            jj_RN * RN + (jj_RN + u - jj_RN) * (RN - 1) :=
          fpBLOC_POS_of_ge _ _ _ (by omega)
        simp only [Function.comp, hr, if_neg, hcol,
          show jj_RN + u - jj_RN = u from by omega]
        congr 1
        ring


/-- Each accumulator of `gemm_bloc` reduces to the per-cell left-to-right
madd chain over `l` (both loop nests perform the same per-cell updates). -/
theorem fpBlocCv_eval {V D F : Type} (O : FOps V D F)
    (lda ldb k KN RM RN ii jj : ℕ) (j i : ℕ) (hj : j < RN) (hi : i < RM) :
    fpBlocCv O lda ldb k KN RM RN ii jj j i =
      (forSteps 0 k KN).foldl
        (fun acc l => O.madd (O.loadA (lda * (ii + i) + l))
          (O.loadB (ldb * (jj + j) + l)) acc) O.zeroD := by
  unfold fpBlocCv
  by_cases h : RM ≤ RN
  · simp only [h, if_true]
    exact foldl_l_eval (fpBlocStep O lda ldb ii jj) RN RM _ _ j i hj hi
  · simp only [h, if_false]
    exact foldl_l_eval_swapped (fpBlocStep O lda ldb ii jj) RN RM _ _ j i hj hi

/-- The writes of `gemm_bloc<RM, RN>(ii, jj)`: each cell `(ii+i, jj+j)`
receives exactly `fpCellVal` of its coordinates. -/
theorem fpBlocWrites_vals {V D F : Type} (O : FOps V D F)
    (lda ldb k KN RM RN ii jj : ℕ) :
    fpBlocWrites O lda ldb k KN RM RN ii jj =
      (List.range RN).flatMap fun j =>
        (List.range RM).map fun i =>
          ((ii + i, jj + j), fpCellVal O lda ldb k KN (ii + i) (jj + j)) := by
  unfold fpBlocWrites
  refine List.flatMap_congr fun j hj => ?_
  refine List.map_congr_left fun i hi => ?_
  rw [fpBlocCv_eval O lda ldb k KN RM RN ii jj j i
    (List.mem_range.mp hj) (List.mem_range.mp hi)]
  rfl

/-- One job of `tinyBLAS::gemm`, canonicalised: row block `J % ytiles`, the
`BM` sub-blocks of `RM` rows, and for each tile `r` of the stripe
`[pos(jb), pos(jb+1))` a `gemm_bloc` of width `RN` or `RN−1` at column
`fpBLOC_POS r jj_RN RN`. -/
theorem fpJobWrites_canon {V D F : Type} (O : FOps V D F)
    (lda ldb k KN RM RN BM SIZE_BN jj_BN jj_RN ytiles xtiles : ℕ)
    (hRM : 1 ≤ RM) (hRN : 1 ≤ RN) (hjx : jj_RN ≤ xtiles)
    (hRN1 : RN = 1 → xtiles ≤ jj_RN) (job : ℕ)
    (hstr : fpBLOC_POS (job / ytiles + 1) jj_BN SIZE_BN ≤ xtiles) :
    fpJobWrites O lda ldb k KN RM RN BM SIZE_BN jj_BN jj_RN ytiles job =
      (List.range BM).flatMap fun b =>
        (List.range' (fpBLOC_POS (job / ytiles) jj_BN SIZE_BN)
            (fpBLOC_POS (job / ytiles + 1) jj_BN SIZE_BN -
              fpBLOC_POS (job / ytiles) jj_BN SIZE_BN)).flatMap fun r =>
          fpBlocWrites O lda ldb k KN RM (if r < jj_RN then RN else RN - 1)
            (job % ytiles * (RM * BM) + b * RM) (fpBLOC_POS r jj_RN RN) := by
  unfold fpJobWrites
  rw [show BM * RM = 0 + BM * RM from by omega,
    forSteps_exact 0 BM RM hRM, List.flatMap_map]
  refine List.flatMap_congr fun b hb => ?_
  have hW := stripe_iteration
    (fun w jj => fpBlocWrites O lda ldb k KN RM w
      (job % ytiles * (RM * BM) + (0 + RM * b)) jj)
    RN jj_RN xtiles hRN hjx hRN1
    (fpBLOC_POS (job / ytiles) jj_BN SIZE_BN)
    (fpBLOC_POS (job / ytiles + 1) jj_BN SIZE_BN)
    (fpBLOC_POS_le_succ _ _ _) hstr
  simp only at hW ⊢
  rw [hW]
  refine List.flatMap_congr fun r hr => ?_
  have : (0 : ℕ) + RM * b = b * RM := by ring
  rw [this]


theorem ceil_le_mul (n s : ℕ) (hs : 1 ≤ s) : n ≤ s * ((n + s - 1) / s) := by
  have hdm := Nat.div_add_mod (n + s - 1) s
  have hmod : (n + s - 1) % s < s := Nat.mod_lt _ (by omega)
  omega

theorem ceil_pos (n s : ℕ) (hn : 1 ≤ n) (hs : 1 ≤ s) : 1 ≤ (n + s - 1) / s :=
  (Nat.one_le_div_iff (by omega)).mpr (by omega)

/-- `SIZE_N = BLOCK_SIZE<M>(n)` is a balanced tile width: it is in `[1, M]`
and `ceil(n / SIZE_N) · (SIZE_N − 1) < n` (so the tail tile count `jj_RN` is
positive). -/
theorem fpBLOCK_SIZE_spec (M n : ℕ) (hM : 1 ≤ M) (hn : 1 ≤ n) :
    1 ≤ fpBLOCK_SIZE M n ∧ fpBLOCK_SIZE M n ≤ M ∧
      ((n + fpBLOCK_SIZE M n - 1) / fpBLOCK_SIZE M n) * (fpBLOCK_SIZE M n - 1) < n := by
  unfold fpBLOCK_SIZE
  have hq1 : 1 ≤ (n + M - 1) / M := ceil_pos n M hn hM
  have hqM : n ≤ M * ((n + M - 1) / M) := ceil_le_mul n M hM
  simp only []
  generalize hqg : (n + M - 1) / M = q at hq1 hqM ⊢
  have hq0 : 0 < q := hq1
  have hdm := Nat.div_add_mod n q
  have hmod : n % q < q := Nat.mod_lt _ hq0
  by_cases hz : n % q = 0
  · simp only [hz, if_pos]
    have hc : q * (n / q) = n := by omega
    have hc1 : 1 ≤ n / q := by
      rcases Nat.eq_zero_or_pos (n / q) with h0 | h1
      · rw [h0, Nat.mul_zero] at hc; omega
      · exact h1
    have hcM : n / q ≤ M := by
      refine Nat.le_of_mul_le_mul_left ?_ hq0
      calc q * (n / q) = n := hc
      _ ≤ M * q := hqM
      _ = q * M := Nat.mul_comm _ _
    refine ⟨hc1, hcM, ?_⟩
    have hq_pred : q * (n / q - 1) < n := by
      rw [Nat.mul_sub, Nat.mul_one]
      omega
    have hxle : (n + n / q - 1) / (n / q) ≤ q := by
      have e : (q + 1) * (n / q) = q * (n / q) + n / q := by ring
      have h2 : n + n / q - 1 < (q + 1) * (n / q) := by omega
      have := (Nat.div_lt_iff_lt_mul (show 0 < n / q from hc1)).mpr h2
      omega
    calc (n + n / q - 1) / (n / q) * (n / q - 1) ≤ q * (n / q - 1) :=
          Nat.mul_le_mul_right _ hxle
    _ < n := hq_pred
  · simp only [hz, if_neg, if_false]
    have hdist : q * (n / q + 1) = q * (n / q) + q := by ring
    have hRN1 : 1 ≤ n / q + 1 := Nat.succ_le_succ (Nat.zero_le _)
    have hRNM : n / q + 1 ≤ M := by
      have hlt : n < M * q := by
        rcases Nat.lt_or_ge n (M * q) with h | h
        · exact h
        · exfalso
          have he : n = M * q := by omega
          rw [he] at hz
          exact hz (Nat.mul_mod_left M q)
      have := (Nat.div_lt_iff_lt_mul hq0).mpr hlt
      omega
    refine ⟨hRN1, hRNM, ?_⟩
    have hq_pred : q * (n / q + 1 - 1) < n := by
      rw [Nat.add_sub_cancel]
      omega
    have hxle : (n + (n / q + 1) - 1) / (n / q + 1) ≤ q := by
      have e : (q + 1) * (n / q + 1) = q * (n / q) + q + n / q + 1 := by ring
      have h2 : n + (n / q + 1) - 1 < (q + 1) * (n / q + 1) := by omega
      have := (Nat.div_lt_iff_lt_mul (show 0 < n / q + 1 by omega)).mpr h2
      omega
    calc (n + (n / q + 1) - 1) / (n / q + 1) * (n / q + 1 - 1)
        ≤ q * (n / q + 1 - 1) := Nat.mul_le_mul_right _ hxle
    _ < n := hq_pred


theorem length_flatMap' {α β : Type} (l : List α) (f : α → List β) :
    (l.flatMap f).length = (l.map (fun a => (f a).length)).sum := by
  induction l with
  | nil => rfl
  | cons a l ih => simp [List.flatMap_cons, ih]

theorem mem_range1 {m s n : ℕ} : m ∈ List.range' s n ↔ s ≤ m ∧ m < s + n := by
  rw [List.mem_range']
  constructor
  · rintro ⟨i, hi, rfl⟩
    omega
  · intro h
    exact ⟨m - s, by omega, by omega⟩

theorem sum_range_mul_div (y N : ℕ) (h : ℕ → ℕ) :
    ((List.range (y * N)).map (fun J => h (J / y))).sum =
      y * ((List.range N).map h).sum := by
  induction N with
  | zero => simp
  | succ N ih =>
    rw [show y * (N + 1) = y * N + y from by ring, List.range_add,
      List.map_append, List.sum_append, ih, List.map_map]
    rcases Nat.eq_zero_or_pos y with h0 | hy
    · subst h0
      simp
    · have hconst : ∀ u ∈ List.range y,
          ((fun J => h (J / y)) ∘ (y * N + ·)) u = h N := by
        intro u hu
        have hu' : u < y := List.mem_range.mp hu
        simp only [Function.comp]
        rw [Nat.mul_add_div hy, Nat.div_eq_of_lt hu', Nat.add_zero]
      rw [List.map_congr_left hconst, List.range_succ, List.map_append,
        List.sum_append]
      simp [Nat.mul_add, Nat.mul_comm y (h N)]


/-- A list of pairs that enumerates exactly the grid and has the grid's
cardinality has no duplicates. -/
theorem nodup_of_grid {l : List (ℕ × ℕ)} {m n : ℕ}
    (hmem : ∀ r c : ℕ, (r, c) ∈ l ↔ r < m ∧ c < n)
    (hlen : l.length = m * n) : l.Nodup := by
  have hfin : l.toFinset = Finset.range m ×ˢ Finset.range n := by
    ext x
    rcases x with ⟨a, b⟩
    rw [List.mem_toFinset, Finset.mem_product, Finset.mem_range, Finset.mem_range]
    exact hmem a b
  have hcard : l.toFinset.card = m * n := by
    rw [hfin, Finset.card_product, Finset.card_range, Finset.card_range]
  have hdl : l.dedup.length = l.length := by
    rw [← List.card_toFinset, hcard, hlen]
  exact List.dedup_eq_self.mp (List.Sublist.eq_of_length (List.dedup_sublist _) hdl)

/-- Core coverage property of the two-level floating-point scheme, stated
over the derived scheduling quantities. -/
theorem fpGemm_coverage_core {V D F : Type} (O : FOps V D F)
    (lda ldb k KN RM RN BM : ℕ)
    (xtiles jj_RN NB_BN SIZE_BN jj_BN ytiles m n : ℕ)
    (hRM : 1 ≤ RM) (hBM : 1 ≤ BM) (hRN : 1 ≤ RN)
    (hm : m = ytiles * (RM * BM))
    (hjjx : jj_RN ≤ xtiles)
    (hRN1 : RN = 1 → xtiles ≤ jj_RN)
    (hcolfull : fpBLOC_POS xtiles jj_RN RN = n)
    (hstrfull : fpBLOC_POS NB_BN jj_BN SIZE_BN = xtiles) :
    (∀ w ∈ (List.range (ytiles * NB_BN)).flatMap
        (fpJobWrites O lda ldb k KN RM RN BM SIZE_BN jj_BN jj_RN ytiles),
      w.2 = fpCellVal O lda ldb k KN w.1.1 w.1.2) ∧
    (∀ r c : ℕ,
      (r, c) ∈ ((List.range (ytiles * NB_BN)).flatMap
          (fpJobWrites O lda ldb k KN RM RN BM SIZE_BN jj_BN jj_RN ytiles)).map
        Prod.fst ↔ r < m ∧ c < n) ∧
    (((List.range (ytiles * NB_BN)).flatMap
        (fpJobWrites O lda ldb k KN RM RN BM SIZE_BN jj_BN jj_RN ytiles)).map
      Prod.fst).Nodup := by
  -- abbreviations
  have hcolmono : Monotone (fpBLOC_POS · jj_RN RN) := fpBLOC_POS_mono _ _
  have hstrmono : Monotone (fpBLOC_POS · jj_BN SIZE_BN) := fpBLOC_POS_mono _ _
  have hstr : ∀ J ∈ List.range (ytiles * NB_BN),
      fpBLOC_POS (J / ytiles + 1) jj_BN SIZE_BN ≤ xtiles := by
    intro J hJ
    have hJ' : J < ytiles * NB_BN := List.mem_range.mp hJ
    have hy : 0 < ytiles := by
      rcases Nat.eq_zero_or_pos ytiles with h0 | h1
      · rw [h0] at hJ'; omega
      · exact h1
    have hjb : J / ytiles + 1 ≤ NB_BN := by
      have hcomm : ytiles * NB_BN = NB_BN * ytiles := Nat.mul_comm _ _
      have := (Nat.div_lt_iff_lt_mul hy).mpr (show J < NB_BN * ytiles by omega)
      omega
    calc fpBLOC_POS (J / ytiles + 1) jj_BN SIZE_BN
        ≤ fpBLOC_POS NB_BN jj_BN SIZE_BN := hstrmono hjb
    _ = xtiles := hstrfull
  -- the canonical form of the whole write list
  have hcanon : (List.range (ytiles * NB_BN)).flatMap
      (fpJobWrites O lda ldb k KN RM RN BM SIZE_BN jj_BN jj_RN ytiles) =
      (List.range (ytiles * NB_BN)).flatMap (fun J =>
        (List.range BM).flatMap fun b =>
          (List.range' (fpBLOC_POS (J / ytiles) jj_BN SIZE_BN)
              (fpBLOC_POS (J / ytiles + 1) jj_BN SIZE_BN -
                fpBLOC_POS (J / ytiles) jj_BN SIZE_BN)).flatMap fun r =>
            (List.range (if r < jj_RN then RN else RN - 1)).flatMap fun j =>
              (List.range RM).map fun i =>
                ((J % ytiles * (RM * BM) + b * RM + i, fpBLOC_POS r jj_RN RN + j),
                  fpCellVal O lda ldb k KN
                    (J % ytiles * (RM * BM) + b * RM + i)
                    (fpBLOC_POS r jj_RN RN + j))) := by
    refine List.flatMap_congr fun J hJ => ?_
    rw [fpJobWrites_canon O lda ldb k KN RM RN BM SIZE_BN jj_BN jj_RN ytiles
      xtiles hRM hRN hjjx hRN1 J (hstr J hJ)]
    refine List.flatMap_congr fun b _ => ?_
    refine List.flatMap_congr fun r _ => ?_
    rw [fpBlocWrites_vals]
  rw [hcanon]
  have hmem : ∀ r c : ℕ,
      (r, c) ∈ ((List.range (ytiles * NB_BN)).flatMap (fun J =>
        (List.range BM).flatMap fun b =>
          (List.range' (fpBLOC_POS (J / ytiles) jj_BN SIZE_BN)
              (fpBLOC_POS (J / ytiles + 1) jj_BN SIZE_BN -
                fpBLOC_POS (J / ytiles) jj_BN SIZE_BN)).flatMap fun r =>
            (List.range (if r < jj_RN then RN else RN - 1)).flatMap fun j =>
              (List.range RM).map fun i =>
                ((J % ytiles * (RM * BM) + b * RM + i, fpBLOC_POS r jj_RN RN + j),
                  fpCellVal O lda ldb k KN
                    (J % ytiles * (RM * BM) + b * RM + i)
                    (fpBLOC_POS r jj_RN RN + j)))).map Prod.fst ↔ r < m ∧ c < n := by
    intro r c
    simp only [List.map_flatMap, List.map_map, List.mem_flatMap, List.mem_map,
      List.mem_range, Function.comp, mem_range1]
    constructor
    · rintro ⟨J, hJ, b, hb, rr, hrr, j, hj, i, hi, hcell⟩
      rw [Prod.mk.injEq] at hcell
      obtain ⟨hrow, hcol⟩ := hcell
      have hy : 0 < ytiles := by
        rcases Nat.eq_zero_or_pos ytiles with h0 | h1
        · rw [h0] at hJ; omega
        · exact h1
      have hq : J % ytiles < ytiles := Nat.mod_lt _ hy
      constructor
      · -- row bound
        have hbb : b * RM + RM ≤ BM * RM := by
          have := Nat.mul_le_mul_right RM (show b + 1 ≤ BM by omega)
          rwa [Nat.succ_mul] at this
        have hqq : (J % ytiles + 1) * (RM * BM) ≤ ytiles * (RM * BM) :=
          Nat.mul_le_mul_right _ (by omega)
        have hqq' : (J % ytiles + 1) * (RM * BM) =
            J % ytiles * (RM * BM) + RM * BM := Nat.succ_mul _ _
        have hBMRM : BM * RM = RM * BM := Nat.mul_comm _ _
        omega
      · -- column bound
        have hs1 : rr < fpBLOC_POS (J / ytiles + 1) jj_BN SIZE_BN := by
          have := fpBLOC_POS_le_succ (J / ytiles) jj_BN SIZE_BN
          omega
        have hrx : rr + 1 ≤ xtiles := by
          have := hstr J (List.mem_range.mpr hJ)
          omega
        have hcol1 : fpBLOC_POS (rr + 1) jj_RN RN ≤ n := by
          calc fpBLOC_POS (rr + 1) jj_RN RN ≤ fpBLOC_POS xtiles jj_RN RN :=
                hcolmono hrx
          _ = n := hcolfull
        have hsucc := fpBLOC_POS_succ rr jj_RN RN
        by_cases htj : rr < jj_RN <;> simp only [htj, if_true, if_false] at hsucc hj <;> omega
    · rintro ⟨hr, hc⟩
      have hRMBM : 0 < RM * BM := Nat.mul_pos hRM hBM
      have hy : 0 < ytiles := by
        rcases Nat.eq_zero_or_pos ytiles with h0 | h1
        · rw [h0] at hm; simp at hm; omega
        · exact h1
      have he1 := Nat.div_add_mod r (RM * BM)
      have he2 := Nat.div_add_mod (r % (RM * BM)) RM
      have hq : r / (RM * BM) < ytiles := by
        refine (Nat.div_lt_iff_lt_mul hRMBM).mpr ?_
        rw [hm] at hr
        have : ytiles * (RM * BM) = RM * BM * ytiles := Nat.mul_comm _ _
        omega
      have hblt : r % (RM * BM) / RM < BM := by
        refine (Nat.div_lt_iff_lt_mul hRM).mpr ?_
        have := Nat.mod_lt r hRMBM
        have hcm : RM * BM = BM * RM := Nat.mul_comm _ _
        omega
      have hilt : r % (RM * BM) % RM < RM := Nat.mod_lt _ hRM
      obtain ⟨t, htx, ht1, ht2⟩ := exists_interval (fpBLOC_POS · jj_RN RN)
        (fun u => fpBLOC_POS_le_succ u _ _) xtiles c
        (by show fpBLOC_POS 0 jj_RN RN ≤ c
            rw [fpBLOC_POS_zero]; omega)
        (by show c < fpBLOC_POS xtiles jj_RN RN
            rw [hcolfull]; exact hc)
      obtain ⟨jb, hjbN, hjb1, hjb2⟩ := exists_interval (fpBLOC_POS · jj_BN SIZE_BN)
        (fun u => fpBLOC_POS_le_succ u _ _) NB_BN t
        (by show fpBLOC_POS 0 jj_BN SIZE_BN ≤ t
            rw [fpBLOC_POS_zero]; omega)
        (by show t < fpBLOC_POS NB_BN jj_BN SIZE_BN
            rw [hstrfull]; exact htx)
      have hJform : jb * ytiles + r / (RM * BM) = ytiles * jb + r / (RM * BM) := by
        ring
      have hJd : (jb * ytiles + r / (RM * BM)) / ytiles = jb := by
        rw [hJform, Nat.mul_add_div hy, Nat.div_eq_of_lt hq, Nat.add_zero]
      have hJm : (jb * ytiles + r / (RM * BM)) % ytiles = r / (RM * BM) := by
        rw [hJform, Nat.mul_add_mod, Nat.mod_eq_of_lt hq]
      refine ⟨jb * ytiles + r / (RM * BM), ?_, r % (RM * BM) / RM, hblt,
        t, ?_, c - fpBLOC_POS t jj_RN RN, ?_, r % (RM * BM) % RM, hilt, ?_⟩
      · have h1 : (jb + 1) * ytiles ≤ NB_BN * ytiles :=
          Nat.mul_le_mul_right _ (by omega)
        have h2 : (jb + 1) * ytiles = jb * ytiles + ytiles := Nat.succ_mul _ _
        have h3 : NB_BN * ytiles = ytiles * NB_BN := Nat.mul_comm _ _
        omega
      · rw [hJd]
        have := fpBLOC_POS_le_succ jb jj_BN SIZE_BN
        exact ⟨hjb1, by omega⟩
      · have hsucc := fpBLOC_POS_succ t jj_RN RN
        by_cases htj : t < jj_RN <;>
          simp only [htj, if_true, if_false] at hsucc ⊢ <;> omega
      · rw [Prod.mk.injEq]
        constructor
        · rw [hJm]
          have c1 : r / (RM * BM) * (RM * BM) = RM * BM * (r / (RM * BM)) :=
            Nat.mul_comm _ _
          have c2 : r % (RM * BM) / RM * RM = RM * (r % (RM * BM) / RM) :=
            Nat.mul_comm _ _
          omega
        · omega
  refine ⟨?_, hmem, ?_⟩
  · -- every write carries the canonical per-cell value
    intro w hw
    simp only [List.mem_flatMap, List.mem_map] at hw
    obtain ⟨J, _, b, _, r, _, j, _, i, _, rfl⟩ := hw
    rfl
  · -- no duplicate writes: counting argument
    have hlen : (((List.range (ytiles * NB_BN)).flatMap (fun J =>
        (List.range BM).flatMap fun b =>
          (List.range' (fpBLOC_POS (J / ytiles) jj_BN SIZE_BN)
              (fpBLOC_POS (J / ytiles + 1) jj_BN SIZE_BN -
                fpBLOC_POS (J / ytiles) jj_BN SIZE_BN)).flatMap fun r =>
            (List.range (if r < jj_RN then RN else RN - 1)).flatMap fun j =>
              (List.range RM).map fun i =>
                ((J % ytiles * (RM * BM) + b * RM + i, fpBLOC_POS r jj_RN RN + j),
                  fpCellVal O lda ldb k KN
                    (J % ytiles * (RM * BM) + b * RM + i)
                    (fpBLOC_POS r jj_RN RN + j)))).length) = m * n := by
      simp only [length_flatMap', List.map_map, Function.comp, List.length_map,
        List.length_range, List.map_const', List.sum_replicate, smul_eq_mul]
      have hone : ∀ J ∈ List.range (ytiles * NB_BN),
          BM * ((List.range' (fpBLOC_POS (J / ytiles) jj_BN SIZE_BN)
              (fpBLOC_POS (J / ytiles + 1) jj_BN SIZE_BN -
                fpBLOC_POS (J / ytiles) jj_BN SIZE_BN)).map
              (fun r => (if r < jj_RN then RN else RN - 1) * RM)).sum =
          BM * RM *
            (fpBLOC_POS (fpBLOC_POS (J / ytiles + 1) jj_BN SIZE_BN) jj_RN RN -
              fpBLOC_POS (fpBLOC_POS (J / ytiles) jj_BN SIZE_BN) jj_RN RN) := by
        intro J _
        have hfun : ((List.range' (fpBLOC_POS (J / ytiles) jj_BN SIZE_BN)
              (fpBLOC_POS (J / ytiles + 1) jj_BN SIZE_BN -
                fpBLOC_POS (J / ytiles) jj_BN SIZE_BN)).map
              (fun r => (if r < jj_RN then RN else RN - 1) * RM)) =
            ((List.range' (fpBLOC_POS (J / ytiles) jj_BN SIZE_BN)
              (fpBLOC_POS (J / ytiles + 1) jj_BN SIZE_BN -
                fpBLOC_POS (J / ytiles) jj_BN SIZE_BN)).map
              (fun r => (fpBLOC_POS (r + 1) jj_RN RN - fpBLOC_POS r jj_RN RN) * RM)) := by
          refine List.map_congr_left fun r _ => ?_
          have h := fpBLOC_POS_succ r jj_RN RN
          congr 1
          omega
        rw [hfun, List.sum_map_mul_right]
        have htel := sum_map_range'_telescope (fpBLOC_POS · jj_RN RN)
          (fun u => fpBLOC_POS_le_succ u _ _)
          (fpBLOC_POS (J / ytiles + 1) jj_BN SIZE_BN -
            fpBLOC_POS (J / ytiles) jj_BN SIZE_BN)
          (fpBLOC_POS (J / ytiles) jj_BN SIZE_BN)
        simp only [] at htel
        rw [htel,
          show fpBLOC_POS (J / ytiles) jj_BN SIZE_BN +
              (fpBLOC_POS (J / ytiles + 1) jj_BN SIZE_BN -
                fpBLOC_POS (J / ytiles) jj_BN SIZE_BN) =
              fpBLOC_POS (J / ytiles + 1) jj_BN SIZE_BN from by
            have hle := fpBLOC_POS_le_succ (J / ytiles) jj_BN SIZE_BN
            omega]
        ring
      rw [List.map_congr_left hone]
      have hsum := sum_range_mul_div ytiles NB_BN
        (fun jb => BM * RM *
          (fpBLOC_POS (fpBLOC_POS (jb + 1) jj_BN SIZE_BN) jj_RN RN -
            fpBLOC_POS (fpBLOC_POS jb jj_BN SIZE_BN) jj_RN RN))
      simp only [] at hsum
      rw [hsum]
      have hmul := List.sum_map_mul_left (List.range NB_BN)
        (fun jb => fpBLOC_POS (fpBLOC_POS (jb + 1) jj_BN SIZE_BN) jj_RN RN -
          fpBLOC_POS (fpBLOC_POS jb jj_BN SIZE_BN) jj_RN RN) (BM * RM)
      simp only [] at hmul
      rw [hmul, List.range_eq_range']
      have htel2 := sum_map_range'_telescope
        (fun jb => fpBLOC_POS (fpBLOC_POS jb jj_BN SIZE_BN) jj_RN RN)
        (fun i => hcolmono (fpBLOC_POS_le_succ i jj_BN SIZE_BN)) NB_BN 0
      simp only [Nat.zero_add] at htel2
      rw [htel2, hstrfull, hcolfull, fpBLOC_POS_zero, fpBLOC_POS_zero, hm]
      simp only [Nat.sub_zero]
      ring
    exact nodup_of_grid hmem (by rw [List.length_map]; exact hlen)

/-- If `X` lies between `N·(bs−1)` (exclusive) and `N·bs` (inclusive), the
`BLOC_POS` profile with `N − (N·bs − X)` full-size blocks ends exactly at
`X`. -/
theorem bloc_pos_full (N bs X : ℕ) (hbs : 1 ≤ bs)
    (hge : X ≤ N * bs) (hlt : N * (bs - 1) < X) :
    fpBLOC_POS N (N - (N * bs - X)) bs = X := by
  unfold fpBLOC_POS
  have hc : N * (bs - 1) = N * bs - N := by rw [Nat.mul_sub, Nat.mul_one]
  have hsx : N * bs - X ≤ N := by omega
  split
  · omega
  · zify [hsx, Nat.sub_le N (N * bs - X), hge, hbs]
    ring

/-- Coverage of `tinyBLAS::gemm<RM, RN, BM>(m, n, BN)` in terms of its own
derived quantities: provided `RM·BM ∣ m` and `RN` satisfies the
balanced-block inequality `ceil(n/RN)·(RN−1) < n` guaranteed by
`BLOCK_SIZE`, the writes carry the canonical per-cell value, cover exactly
the `m × n` grid, and never write a cell twice. -/
theorem fpGemm_coverage {V D F : Type} (O : FOps V D F)
    (lda ldb k KN RM RN BM BN m n : ℕ)
    (hRM : 1 ≤ RM) (hBM : 1 ≤ BM) (hRN : 1 ≤ RN) (hBN : 1 ≤ BN)
    (hn : 1 ≤ n)
    (hdiv : m % (RM * BM) = 0)
    (hbal : ((n + RN - 1) / RN) * (RN - 1) < n) :
    (∀ w ∈ fpGemmWrites O lda ldb k KN RM RN BM BN m n,
      w.2 = fpCellVal O lda ldb k KN w.1.1 w.1.2) ∧
    (∀ r c : ℕ,
      (r, c) ∈ (fpGemmWrites O lda ldb k KN RM RN BM BN m n).map Prod.fst ↔
        r < m ∧ c < n) ∧
    ((fpGemmWrites O lda ldb k KN RM RN BM BN m n).map Prod.fst).Nodup := by
  have hx : 1 ≤ (n + RN - 1) / RN := ceil_pos n RN hn hRN
  have hm : m = m / (RM * BM) * (RM * BM) := by
    have h1 := Nat.div_add_mod m (RM * BM)
    have h2 : RM * BM * (m / (RM * BM)) = m / (RM * BM) * (RM * BM) :=
      Nat.mul_comm _ _
    omega
  have hge : n ≤ (n + RN - 1) / RN * RN := by
    have h1 := ceil_le_mul n RN hRN
    have h2 : RN * ((n + RN - 1) / RN) = (n + RN - 1) / RN * RN :=
      Nat.mul_comm _ _
    omega
  have hcolfull : fpBLOC_POS ((n + RN - 1) / RN)
      ((n + RN - 1) / RN - ((n + RN - 1) / RN * RN - n)) RN = n :=
    bloc_pos_full _ RN n hRN hge hbal
  have hRN1 : RN = 1 →
      (n + RN - 1) / RN ≤ (n + RN - 1) / RN - ((n + RN - 1) / RN * RN - n) := by
    intro h
    subst h
    simp only [Nat.add_sub_cancel, Nat.div_one, Nat.mul_one]
    omega
  have hNB1 : 1 ≤ gemmNB_BN BN ((n + RN - 1) / RN) :=
    gemmNB_BN_pos BN _ hx hBN
  have h2 : (n + RN - 1) / RN ≤ gemmNB_BN BN ((n + RN - 1) / RN) *
      gemmSIZE_BN (gemmNB_BN BN ((n + RN - 1) / RN)) ((n + RN - 1) / RN) :=
    gemmSIZE_BN_mul_ge _ _ hNB1
  have h3 : gemmNB_BN BN ((n + RN - 1) / RN) *
      (gemmSIZE_BN (gemmNB_BN BN ((n + RN - 1) / RN)) ((n + RN - 1) / RN) - 1) <
      (n + RN - 1) / RN :=
    gemmSIZE_BN_pred_mul_lt _ _ hx hNB1
  have hS1 : 1 ≤ gemmSIZE_BN (gemmNB_BN BN ((n + RN - 1) / RN))
      ((n + RN - 1) / RN) := by
    rcases Nat.eq_zero_or_pos
      (gemmSIZE_BN (gemmNB_BN BN ((n + RN - 1) / RN)) ((n + RN - 1) / RN)) with
      h0 | h1
    · rw [h0, Nat.mul_zero] at h2; omega
    · exact h1
  have hstrfull : fpBLOC_POS (gemmNB_BN BN ((n + RN - 1) / RN))
      (gemmJJ_BN (gemmNB_BN BN ((n + RN - 1) / RN))
        (gemmSIZE_BN (gemmNB_BN BN ((n + RN - 1) / RN)) ((n + RN - 1) / RN))
        ((n + RN - 1) / RN))
      (gemmSIZE_BN (gemmNB_BN BN ((n + RN - 1) / RN)) ((n + RN - 1) / RN)) =
      (n + RN - 1) / RN :=
    bloc_pos_full _ _ _ hS1 h2 h3
  have core := fpGemm_coverage_core O lda ldb k KN RM RN BM
    ((n + RN - 1) / RN)
    ((n + RN - 1) / RN - ((n + RN - 1) / RN * RN - n))
    (gemmNB_BN BN ((n + RN - 1) / RN))
    (gemmSIZE_BN (gemmNB_BN BN ((n + RN - 1) / RN)) ((n + RN - 1) / RN))
    (gemmJJ_BN (gemmNB_BN BN ((n + RN - 1) / RN))
      (gemmSIZE_BN (gemmNB_BN BN ((n + RN - 1) / RN)) ((n + RN - 1) / RN))
      ((n + RN - 1) / RN))
    (m / (RM * BM)) m n
    hRM hBM hRN hm (Nat.sub_le _ _) hRN1 hcolfull hstrfull
  exact core


/-- A single worker's duty range, written with the clamped endpoints
`min (duty·ith) tiles` and `min (duty·(ith+1)) tiles`. -/
theorem qJobs_eq_clamped (nth ith tiles : ℕ) :
    qJobs nth ith tiles =
      List.range' (min ((tiles + nth - 1) / nth * ith) tiles)
        (min ((tiles + nth - 1) / nth * (ith + 1)) tiles -
          min ((tiles + nth - 1) / nth * ith) tiles) := by
  unfold qJobs
  simp only []
  have hsucc : (tiles + nth - 1) / nth * (ith + 1) =
      (tiles + nth - 1) / nth * ith + (tiles + nth - 1) / nth := Nat.mul_succ _ _
  by_cases hst : tiles ≤ (tiles + nth - 1) / nth * ith
  · have h0 : (if (tiles + nth - 1) / nth * ith + (tiles + nth - 1) / nth > tiles
        then tiles else (tiles + nth - 1) / nth * ith + (tiles + nth - 1) / nth) -
        (tiles + nth - 1) / nth * ith = 0 := by
      split <;> omega
    have h1 : min ((tiles + nth - 1) / nth * (ith + 1)) tiles -
        min ((tiles + nth - 1) / nth * ith) tiles = 0 := by omega
    rw [h0, h1]
    rfl
  · have h2 : min ((tiles + nth - 1) / nth * ith) tiles =
        (tiles + nth - 1) / nth * ith := by omega
    rw [h2]
    congr 1
    split <;> omega

/-- Collectively the `nth` workers' duty ranges cover exactly the job ids
`0, …, tiles−1`, in order. -/
theorem qJobs_collective (nth tiles : ℕ) (hnth : 1 ≤ nth) :
    (List.range nth).flatMap (fun ith => qJobs nth ith tiles) =
      List.range tiles := by
  have hmono : ∀ i, min ((tiles + nth - 1) / nth * i) tiles ≤
      min ((tiles + nth - 1) / nth * (i + 1)) tiles := by
    intro i
    have := Nat.mul_le_mul_left ((tiles + nth - 1) / nth) (show i ≤ i + 1 by omega)
    omega
  have hcong : (List.range nth).flatMap (fun ith => qJobs nth ith tiles) =
      (List.range' 0 nth).flatMap (fun i =>
        List.range' (min ((tiles + nth - 1) / nth * i) tiles)
          (min ((tiles + nth - 1) / nth * (i + 1)) tiles -
            min ((tiles + nth - 1) / nth * i) tiles)) := by
    rw [List.range_eq_range']
    exact List.flatMap_congr fun ith _ => qJobs_eq_clamped nth ith tiles
  rw [hcong,
    flatMap_range'_telescope (fun i => min ((tiles + nth - 1) / nth * i) tiles)
      hmono nth 0]
  have hf0 : min ((tiles + nth - 1) / nth * 0) tiles = 0 := by
    rw [Nat.mul_zero]
    omega
  have hfn : min ((tiles + nth - 1) / nth * nth) tiles = tiles := by
    have h1 := ceil_le_mul tiles nth hnth
    have h2 : nth * ((tiles + nth - 1) / nth) =
        (tiles + nth - 1) / nth * nth := Nat.mul_comm _ _
    omega
  rw [Nat.zero_add, hf0, hfn, Nat.sub_zero, List.range_eq_range']

/-- The cells a single worker's kernel invocation writes (identical address
pattern in `gemm`, `gemm4xN` and `gemmMx4`). -/
def qWorkerCells (nth ith RM RN m0 m n0 n : ℕ) : List (ℕ × ℕ) :=
  (qJobs nth ith ((n - n0) / RN * ((m - m0) / RM))).flatMap fun job =>
    (List.range RN).flatMap fun j =>
      (List.range RM).map fun i =>
        (m0 + job / ((n - n0) / RN) * RM + i, n0 + job % ((n - n0) / RN) * RN + j)

theorem tileStore_cells {F F8 : Type} (Q : QOps F F8) (RM RN ii jj : ℕ)
    (Cv : ℕ → ℕ → F8) :
    (tileStore Q RM RN ii jj Cv).map Prod.fst =
      (List.range RN).flatMap fun j =>
        (List.range RM).map fun i => (ii + i, jj + j) := by
  simp [tileStore, List.map_flatMap, List.map_map, Function.comp_def]

theorem qgemm_cells {F F8 : Type} (Q : QOps F F8) (M : QMats)
    (ith nth RM RN m0 m n0 n : ℕ) :
    (qgemm Q M ith nth RM RN m0 m n0 n).map Prod.fst =
      qWorkerCells nth ith RM RN m0 m n0 n := by
  unfold qgemm qWorkerCells
  simp only [List.map_flatMap]
  exact List.flatMap_congr fun job _ => tileStore_cells Q RM RN _ _ _

theorem qgemm4xN_cells {F F8 : Type} (Q : QOps F F8) (M : QMats)
    (ith nth RN m0 m n0 n : ℕ) :
    (qgemm4xN Q M ith nth RN m0 m n0 n).map Prod.fst =
      qWorkerCells nth ith 4 RN m0 m n0 n := by
  unfold qgemm4xN qWorkerCells
  simp only [List.map_flatMap]
  exact List.flatMap_congr fun job _ => tileStore_cells Q 4 RN _ _ _

theorem qgemmMx4_cells {F F8 : Type} (Q : QOps F F8) (M : QMats)
    (ith nth RM m0 m n0 n : ℕ) :
    (qgemmMx4 Q M ith nth RM m0 m n0 n).map Prod.fst =
      qWorkerCells nth ith RM 4 m0 m n0 n := by
  unfold qgemmMx4 qWorkerCells
  simp only [List.map_flatMap]
  exact List.flatMap_congr fun job _ => tileStore_cells Q RM 4 _ _ _

/-- Coverage of one dispatched kernel invocation, over all workers: the
cells are exactly the full-tile rectangle
`[m0, m0 + ytiles·RM) × [n0, n0 + xtiles·RN)`, with the exact count. -/
theorem qCells_cover (nth RM RN m0 m n0 n : ℕ) (hnth : 1 ≤ nth)
    (hRM : 1 ≤ RM) (hRN : 1 ≤ RN) :
    (∀ r c : ℕ, (r, c) ∈ (List.range nth).flatMap
        (fun ith => qWorkerCells nth ith RM RN m0 m n0 n) ↔
      (m0 ≤ r ∧ r < m0 + (m - m0) / RM * RM) ∧
      (n0 ≤ c ∧ c < n0 + (n - n0) / RN * RN)) ∧
    ((List.range nth).flatMap
        (fun ith => qWorkerCells nth ith RM RN m0 m n0 n)).length =
      (m - m0) / RM * RM * ((n - n0) / RN * RN) := by
  have hflat : (List.range nth).flatMap
      (fun ith => qWorkerCells nth ith RM RN m0 m n0 n) =
      (List.range ((n - n0) / RN * ((m - m0) / RM))).flatMap fun job =>
        (List.range RN).flatMap fun j =>
          (List.range RM).map fun i =>
            (m0 + job / ((n - n0) / RN) * RM + i,
              n0 + job % ((n - n0) / RN) * RN + j) := by
    unfold qWorkerCells
    rw [← List.flatMap_assoc, qJobs_collective nth _ hnth]
  rw [hflat]
  constructor
  · intro r c
    simp only [List.mem_flatMap, List.mem_map, List.mem_range]
    constructor
    · rintro ⟨job, hjob, j, hj, i, hi, heq⟩
      rw [Prod.mk.injEq] at heq
      obtain ⟨hr, hc⟩ := heq
      have hxt : 0 < (n - n0) / RN := by
        rcases Nat.eq_zero_or_pos ((n - n0) / RN) with h0 | h1
        · rw [h0, Nat.zero_mul] at hjob; omega
        · exact h1
      have hdlt : job / ((n - n0) / RN) < (m - m0) / RM := by
        refine (Nat.div_lt_iff_lt_mul hxt).mpr ?_
        have hcomm : (m - m0) / RM * ((n - n0) / RN) =
            (n - n0) / RN * ((m - m0) / RM) := Nat.mul_comm _ _
        omega
      have hmlt : job % ((n - n0) / RN) < (n - n0) / RN := Nat.mod_lt _ hxt
      constructor
      · have h1 : (job / ((n - n0) / RN) + 1) * RM ≤ (m - m0) / RM * RM :=
          Nat.mul_le_mul_right _ (by omega)
        have h2 : (job / ((n - n0) / RN) + 1) * RM =
            job / ((n - n0) / RN) * RM + RM := Nat.succ_mul _ _
        omega
      · have h1 : (job % ((n - n0) / RN) + 1) * RN ≤ (n - n0) / RN * RN :=
          Nat.mul_le_mul_right _ (by omega)
        have h2 : (job % ((n - n0) / RN) + 1) * RN =
            job % ((n - n0) / RN) * RN + RN := Nat.succ_mul _ _
        omega
    · rintro ⟨⟨hr0, hr1⟩, ⟨hc0, hc1⟩⟩
      have hqr : (r - m0) / RM < (m - m0) / RM := by
        refine (Nat.div_lt_iff_lt_mul hRM).mpr ?_
        have hcomm : (m - m0) / RM * RM = RM * ((m - m0) / RM) := Nat.mul_comm _ _
        omega
      have hqc : (c - n0) / RN < (n - n0) / RN := by
        refine (Nat.div_lt_iff_lt_mul hRN).mpr ?_
        have hcomm : (n - n0) / RN * RN = RN * ((n - n0) / RN) := Nat.mul_comm _ _
        omega
      have hxt : 0 < (n - n0) / RN := lt_of_le_of_lt (Nat.zero_le _) hqc
      have hjform : (r - m0) / RM * ((n - n0) / RN) + (c - n0) / RN =
          (n - n0) / RN * ((r - m0) / RM) + (c - n0) / RN := by ring
      refine ⟨(r - m0) / RM * ((n - n0) / RN) + (c - n0) / RN, ?_,
        (c - n0) % RN, Nat.mod_lt _ hRN, (r - m0) % RM, Nat.mod_lt _ hRM, ?_⟩
      · have h1 : ((r - m0) / RM + 1) * ((n - n0) / RN) ≤
            (m - m0) / RM * ((n - n0) / RN) := Nat.mul_le_mul_right _ (by omega)
        have h2 : ((r - m0) / RM + 1) * ((n - n0) / RN) =
            (r - m0) / RM * ((n - n0) / RN) + (n - n0) / RN := Nat.succ_mul _ _
        have h3 : (m - m0) / RM * ((n - n0) / RN) =
            (n - n0) / RN * ((m - m0) / RM) := Nat.mul_comm _ _
        omega
      · have hdd : ((r - m0) / RM * ((n - n0) / RN) + (c - n0) / RN) /
            ((n - n0) / RN) = (r - m0) / RM := by
          rw [hjform, Nat.mul_add_div hxt, Nat.div_eq_of_lt hqc, Nat.add_zero]
        have hmm : ((r - m0) / RM * ((n - n0) / RN) + (c - n0) / RN) %
            ((n - n0) / RN) = (c - n0) / RN := by
          rw [hjform, Nat.mul_add_mod, Nat.mod_eq_of_lt hqc]
        rw [Prod.mk.injEq, hdd, hmm]
        have her := Nat.div_add_mod (r - m0) RM
        have hec := Nat.div_add_mod (c - n0) RN
        have c1 : (r - m0) / RM * RM = RM * ((r - m0) / RM) := Nat.mul_comm _ _
        have c2 : (c - n0) / RN * RN = RN * ((c - n0) / RN) := Nat.mul_comm _ _
        constructor
        · omega
        · omega
  · simp only [length_flatMap', List.map_map, Function.comp, List.length_map,
      List.length_range, List.map_const', List.sum_replicate, smul_eq_mul]
    ring


/-- The writes of the kernel invocation a dispatched region records, over
all `nth` workers, with our fixed `__AVX2__ && __F16C__` configuration (the
fast kernels are compiled in). -/
def qKernelWrites {F F8 : Type} (Q : QOps F F8) (M : QMats) (nth : ℕ) :
    QRegion → List ((ℕ × ℕ) × F)
  | (m0, m, n0, n, (_, _, QKernel.fast4xN RN)) =>
    (List.range nth).flatMap fun ith => qgemm4xN Q M ith nth RN m0 m n0 n
  | (m0, m, n0, n, (_, _, QKernel.fastMx4 RM)) =>
    (List.range nth).flatMap fun ith => qgemmMx4 Q M ith nth RM m0 m n0 n
  | (m0, m, n0, n, (_, _, QKernel.generic RM RN)) =>
    (List.range nth).flatMap fun ith => qgemm Q M ith nth RM RN m0 m n0 n

/-- Every matched `switch` case dispatches a kernel whose row/column tile
sizes agree with its `(mc, nc)` step: `gemm4xN<RN>` has `(mc, nc) = (4, RN)`,
`gemmMx4<RM>` has `(mc, nc) = (RM, 4)`, and `gemm<RM, RN>` has
`(mc, nc) = (RM, RN)`. -/
theorem mnpackCase_consistent :
    ∀ regs32 : Bool, ∀ a < 5, ∀ b < 5,
      (match mnpackCase regs32 (16 * a + b) with
        | none => true
        | some (mc, nc, QKernel.fast4xN RN) => decide (mc = 4 ∧ nc = RN)
        | some (mc, nc, QKernel.fastMx4 RM) => decide (mc = RM ∧ nc = 4)
        | some (mc, nc, QKernel.generic RM RN) =>
          decide (mc = RM ∧ nc = RN)) = true := by
  decide

/-- A key with both nibbles nonzero always matches a `switch` case. -/
theorem mnpackCase_some :
    ∀ regs32 : Bool, ∀ a < 5, ∀ b < 5, 1 ≤ a → 1 ≤ b →
      (mnpackCase regs32 (16 * a + b)).isSome = true := by decide

/-- The cells of a dispatched region's kernel, over all workers: whatever
the kernel tag, they follow the common `(mc, nc)` address pattern. -/
theorem qKernelWrites_cells {F F8 : Type} (Q : QOps F F8) (M : QMats)
    (nth : ℕ) (regs32 : Bool) (a b mc nc : ℕ) (kern : QKernel)
    (ha : a < 5) (hb : b < 5)
    (h : mnpackCase regs32 (16 * a + b) = some (mc, nc, kern))
    (m0 m n0 n : ℕ) :
    (qKernelWrites Q M nth (m0, m, n0, n, (mc, nc, kern))).map Prod.fst =
      (List.range nth).flatMap
        (fun ith => qWorkerCells nth ith mc nc m0 m n0 n) := by
  have hcons := mnpackCase_consistent regs32 a ha b hb
  rw [h] at hcons
  cases kern with
  | fast4xN RN =>
    simp only [decide_eq_true_eq] at hcons
    obtain ⟨h1, h2⟩ := hcons
    subst h1
    subst h2
    simp only [qKernelWrites, List.map_flatMap]
    exact List.flatMap_congr fun ith _ => qgemm4xN_cells Q M ith nth _ m0 m n0 n
  | fastMx4 RM =>
    simp only [decide_eq_true_eq] at hcons
    obtain ⟨h1, h2⟩ := hcons
    subst h1
    subst h2
    simp only [qKernelWrites, List.map_flatMap]
    exact List.flatMap_congr fun ith _ => qgemmMx4_cells Q M ith nth _ m0 m n0 n
  | generic RM RN =>
    simp only [decide_eq_true_eq] at hcons
    obtain ⟨h1, h2⟩ := hcons
    subst h1
    subst h2
    simp only [qKernelWrites, List.map_flatMap]
    exact List.flatMap_congr fun ith _ => qgemm_cells Q M ith nth _ _ m0 m n0 n

/-- Coverage of the whole quantised `mnpack` recursion, over all workers:
the dispatched kernels' cells are exactly `[m0, m) × [n0, n)`, with the
exact count `(m − m0)·(n − n0)`. -/
theorem mnpackQ_cells_cover {F F8 : Type} (Q : QOps F F8) (M : QMats)
    (regs32 : Bool) (nth : ℕ) (hnth : 1 ≤ nth) :
    ∀ fuel m0 m n0 n L, mnpackQ regs32 fuel m0 m n0 n = some L →
      (∀ r c : ℕ, (r, c) ∈ (L.flatMap (qKernelWrites Q M nth)).map Prod.fst ↔
        (m0 ≤ r ∧ r < m) ∧ (n0 ≤ c ∧ c < n)) ∧
      ((L.flatMap (qKernelWrites Q M nth)).map Prod.fst).length =
        (m - m0) * (n - n0) := by
  intro fuel
  induction fuel with
  | zero =>
    intro m0 m n0 n L h
    simp [mnpackQ] at h
  | succ f ih =>
    intro m0 m n0 n L h
    have ha : min (m - m0) 4 < 5 := by omega
    have hb : min (n - n0) 4 < 5 := by omega
    simp only [mnpackQ] at h
    rw [key_eq _ ha _ hb] at h
    cases hcase : mnpackCase regs32 (16 * min (m - m0) 4 + min (n - n0) 4) with
    | none =>
      rw [hcase] at h
      simp only [Option.some.injEq] at h
      subst h
      have hz : min (m - m0) 4 = 0 ∨ min (n - n0) 4 = 0 := by
        by_contra hcon
        push_neg at hcon
        have hs := mnpackCase_some regs32 _ ha _ hb (by omega) (by omega)
        rw [hcase] at hs
        simp at hs
      constructor
      · intro r c
        simp only [List.flatMap_nil, List.map_nil, List.not_mem_nil,
          false_iff, not_and, not_lt]
        intro h1 h2
        omega
      · simp only [List.flatMap_nil, List.map_nil, List.length_nil]
        rcases hz with hz | hz
        · rw [show m - m0 = 0 from by omega, Nat.zero_mul]
        · rw [show n - n0 = 0 from by omega, Nat.mul_zero]
    | some x =>
      obtain ⟨mc, nc, kern⟩ := x
      rw [hcase] at h
      simp only [] at h
      have hbnd := mnpackCase_bounds regs32 _ ha _ hb
      rw [hcase] at hbnd
      simp only [decide_eq_true_eq] at hbnd
      obtain ⟨hmc1, hmca, hnc1, hncb⟩ := hbnd
      have hmcle : mc ≤ m - m0 := by omega
      have hncle : nc ≤ n - n0 := by omega
      have hP1 : (m - m0) / mc * mc ≤ m - m0 := Nat.div_mul_le_self _ _
      have hP2 : mc ≤ (m - m0) / mc * mc := by
        have hq : 1 ≤ (m - m0) / mc := (Nat.one_le_div_iff (by omega)).mpr hmcle
        calc mc = 1 * mc := (Nat.one_mul mc).symm
        _ ≤ (m - m0) / mc * mc := Nat.mul_le_mul_right mc hq
      have hQ1 : (n - n0) / nc * nc ≤ n - n0 := Nat.div_mul_le_self _ _
      have hQ2 : nc ≤ (n - n0) / nc * nc := by
        have hq : 1 ≤ (n - n0) / nc := (Nat.one_le_div_iff (by omega)).mpr hncle
        calc nc = 1 * nc := (Nat.one_mul nc).symm
        _ ≤ (n - n0) / nc * nc := Nat.mul_le_mul_right nc hq
      cases h1 : mnpackQ regs32 f (m0 + (m - m0) / mc * mc) m n0
          (n0 + (n - n0) / nc * nc) with
      | none => rw [h1] at h; simp at h
      | some l1 =>
        cases h2 : mnpackQ regs32 f m0 m (n0 + (n - n0) / nc * nc) n with
        | none => rw [h1, h2] at h; simp at h
        | some l2 =>
          rw [h1, h2] at h
          simp only [Option.some.injEq] at h
          subst h
          obtain ⟨ihm1, ihl1⟩ := ih _ _ _ _ _ h1
          obtain ⟨ihm2, ihl2⟩ := ih _ _ _ _ _ h2
          have hhead := qKernelWrites_cells Q M nth regs32 _ _ mc nc kern
            ha hb hcase m0 m n0 n
          obtain ⟨hcm, hcl⟩ := qCells_cover nth mc nc m0 m n0 n hnth hmc1 hnc1
          constructor
          · intro r c
            simp only [List.flatMap_cons, List.flatMap_append, List.map_append,
              List.mem_append]
            rw [hhead]
            constructor
            · rintro (hh | hm1 | hm2)
              · have := (hcm r c).mp hh
                omega
              · have := (ihm1 r c).mp hm1
                omega
              · have := (ihm2 r c).mp hm2
                omega
            · rintro ⟨⟨hr0, hr1⟩, hc0, hc1⟩
              by_cases hcq : c < n0 + (n - n0) / nc * nc
              · by_cases hrp : r < m0 + (m - m0) / mc * mc
                · exact Or.inl ((hcm r c).mpr (by omega))
                · exact Or.inr (Or.inl ((ihm1 r c).mpr (by omega)))
              · exact Or.inr (Or.inr ((ihm2 r c).mpr (by omega)))
          · simp only [List.flatMap_cons, List.flatMap_append, List.map_append,
              List.length_append]
            rw [hhead, hcl, ihl1, ihl2]
            have e1 : n0 + (n - n0) / nc * nc - n0 = (n - n0) / nc * nc := by
              omega
            have e2 : m - (m0 + (m - m0) / mc * mc) =
                m - m0 - (m - m0) / mc * mc := by omega
            have e3 : n - (n0 + (n - n0) / nc * nc) =
                n - n0 - (n - n0) / nc * nc := by omega
            rw [e1, e2, e3]
            zify [hP1, hQ1]
            ring


/-! ## The public entry point `llamafile_sgemm` (sgemm.cpp lines 982-1265)

Fixed build configuration: x86 with `__AVX2__`, `__F16C__`, `__FMA__` (and
no AVX512), so `VECTOR_REGISTERS == 16`, the floating-point engine is
`tinyBLAS<8, __m256, __m256, …>` (`KN = 8`) and the quantised engine is
`tinyBLAS_Q0_AVX`. -/

/-- The `ggml_type` values the entry point distinguishes. -/
inductive GType where
  | F32
  | F16
  | BF16
  | Q8_0
  | Q4_0
  | Q5_0
  | IQ4_NL
  | other
deriving DecidableEq

/-- The writes of `tinyBLAS_Q0_AVX::matmul(m, n)` (sgemm.cpp lines 518-520):
`mnpack(0, m, 0, n)`, collected over all `nth` workers.  Recursion fuel
`m + n + 1` always suffices (C10).

Modelled from the spec: as for the floating-point engine, the workers are
identified by `ith = 0, …, nth−1`; each kernel invocation partitions its
tile range by the `duty`-chunk formula, so collecting over
`ith ∈ [0, nth)` is the collective behaviour of the `nth` workers. -/
def qMatmulWrites {F F8 : Type} (Q : QOps F F8) (M : QMats) (regs32 : Bool)
    (nth m n : ℕ) : Option (List ((ℕ × ℕ) × F)) :=
  (mnpackQ regs32 (m + n + 1) 0 m 0 n).map
    (fun L => L.flatMap (qKernelWrites Q M nth))

/-- `llamafile_sgemm` (sgemm.cpp lines 982-1265) under the fixed
configuration: the returned boolean and the `(cell, value)` writes to C,
collected over all `nth` workers.  `none` models an aborted assertion
(`params->nth > 0`); the floating-point paths run `tinyBLAS<8>::matmul`,
the quantised paths run `tinyBLAS_Q0_AVX::matmul` and return `true`. -/
def llamafile_sgemm {V D F F8 : Type} (O : FOps V D F) (Q : QOps F F8)
    (M : QMats) (nth m n : ℕ) (Atype Btype Ctype : GType) :
    Option (Bool × List ((ℕ × ℕ) × F)) :=
  if nth = 0 then none
  else if n < 2 then some (false, [])
  else if Ctype ≠ GType.F32 then some (false, [])
  else match Atype with
    | GType.F32 =>
      if Btype ≠ GType.F32 then some (false, [])
      else tinyMatmul O false M.lda M.ldb M.k 8 nth m n
    | GType.BF16 =>
      if Btype = GType.BF16 then tinyMatmul O false M.lda M.ldb M.k 8 nth m n
      else some (false, [])
    | GType.F16 =>
      if Btype = GType.F16 then tinyMatmul O false M.lda M.ldb M.k 8 nth m n
      else some (false, [])
    | GType.Q8_0 =>
      if Btype ≠ GType.Q8_0 then some (false, [])
      else (qMatmulWrites Q M false nth m n).map ((true, ·))
    | GType.Q4_0 =>
      if Btype ≠ GType.Q8_0 then some (false, [])
      else (qMatmulWrites Q M false nth m n).map ((true, ·))
    | GType.Q5_0 =>
      if Btype ≠ GType.Q8_0 then some (false, [])
      else (qMatmulWrites Q M false nth m n).map ((true, ·))
    | GType.IQ4_NL =>
      if Btype ≠ GType.Q8_0 then some (false, [])
      else (qMatmulWrites Q M false nth m n).map ((true, ·))
    | GType.other => some (false, [])

/-- The effect of a write list on the output matrix, in order: each write
stores its value at its cell. -/
def applyWrites {F : Type} (C0 : ℕ × ℕ → F) (ws : List ((ℕ × ℕ) × F)) :
    ℕ × ℕ → F :=
  ws.foldl (fun C w => fun cell => if cell = w.1 then w.2 else C cell) C0

/-- If every write's value is a function of its cell alone, the final matrix
is determined by the set of written cells — the write order is irrelevant. -/
theorem applyWrites_canonical {F : Type} (f : ℕ × ℕ → F) :
    ∀ (ws : List ((ℕ × ℕ) × F)) (C0 : ℕ × ℕ → F),
      (∀ w ∈ ws, w.2 = f w.1) →
      applyWrites C0 ws =
        fun cell => if cell ∈ ws.map Prod.fst then f cell else C0 cell := by
  intro ws
  induction ws with
  | nil =>
    intro C0 _
    funext cell
    simp [applyWrites]
  | cons w t ih =>
    intro C0 h
    have hstep : applyWrites C0 (w :: t) =
        applyWrites (fun cell => if cell = w.1 then w.2 else C0 cell) t := rfl
    rw [hstep, ih _ (fun w' hw' => h w' (List.mem_cons_of_mem _ hw'))]
    funext cell
    simp only [List.map_cons, List.mem_cons]
    by_cases h1 : cell ∈ t.map Prod.fst
    · rw [if_pos h1, if_pos (Or.inr h1)]
    · rw [if_neg h1]
      by_cases h2 : cell = w.1
      · rw [if_pos h2, if_pos (Or.inl h2), h w (List.mem_cons_self w t), h2]
      · rw [if_neg h2, if_neg (by tauto)]

/-- `mnpack<RM, fuel, BM>(m, n, SIZE_N, BN)` finds the template instance
`RN = SIZE_N` whenever `1 ≤ SIZE_N ≤ fuel`. -/
theorem fpMnpack_eq {V D F : Type} (O : FOps V D F)
    (lda ldb k KN RM BM BN m n : ℕ) :
    ∀ fuel SIZE_N, 1 ≤ SIZE_N → SIZE_N ≤ fuel →
      fpMnpack O lda ldb k KN RM BM BN m n SIZE_N fuel =
        some (fpGemmWrites O lda ldb k KN RM SIZE_N BM BN m n) := by
  intro fuel
  induction fuel with
  | zero => intro S h1 h2; omega
  | succ f ih =>
    intro S h1 h2
    by_cases hS : S = f + 1
    · subst hS
      simp [fpMnpack]
    · have he : fpMnpack O lda ldb k KN RM BM BN m n S (f + 1) =
          fpMnpack O lda ldb k KN RM BM BN m n S f := by
        simp only [fpMnpack, if_neg hS]
      rw [he]
      exact ih S h1 (by omega)

/-- Coverage for one fired tile-selection row of `tinyBLAS::matmul`: the
row's `mnpack<4, M0, BM>(m, n, BLOCK_SIZE<M0>(n), BN)` call writes each grid
cell of `[0,m) × [0,n)` exactly once, with the canonical per-cell value. -/
theorem fpRow_coverage {V D F : Type} (O : FOps V D F)
    (lda ldb k KN BM BN M0 m n : ℕ) (ws : List ((ℕ × ℕ) × F))
    (hBM : 1 ≤ BM) (hBN : 1 ≤ BN) (hM0 : 1 ≤ M0) (hn : 1 ≤ n)
    (hdiv : m % (4 * BM) = 0)
    (h : (fpMnpack O lda ldb k KN 4 BM BN m n (fpBLOCK_SIZE M0 n) M0).map
        ((true, ·)) = some (true, ws)) :
    (∀ w ∈ ws, w.2 = fpCellVal O lda ldb k KN w.1.1 w.1.2) ∧
    (∀ r c : ℕ, (r, c) ∈ ws.map Prod.fst ↔ r < m ∧ c < n) ∧
    (ws.map Prod.fst).Nodup := by
  obtain ⟨hS1, hSM, hbal⟩ := fpBLOCK_SIZE_spec M0 n hM0 hn
  rw [fpMnpack_eq O lda ldb k KN 4 BM BN m n M0 (fpBLOCK_SIZE M0 n) hS1 hSM]
    at h
  simp only [Option.map, Option.some.injEq, Prod.mk.injEq, true_and] at h
  subst h
  exact fpGemm_coverage O lda ldb k KN 4 (fpBLOCK_SIZE M0 n) BM BN m n
    (by norm_num) hBM hS1 hBN hn hdiv hbal

/-- Coverage of `tinyBLAS::matmul(m, n)` whenever it returns `true`: all
workers together write each cell of `[0,m) × [0,n)` exactly once, and each
write carries the canonical per-cell reduction value — the same for every
tile-selection row. -/
theorem tinyMatmul_true_coverage {V D F : Type} (O : FOps V D F)
    (regs32 : Bool) (lda ldb k KN nth m n : ℕ) (ws : List ((ℕ × ℕ) × F))
    (hn : 1 ≤ n)
    (h : tinyMatmul O regs32 lda ldb k KN nth m n = some (true, ws)) :
    (∀ w ∈ ws, w.2 = fpCellVal O lda ldb k KN w.1.1 w.1.2) ∧
    (∀ r c : ℕ, (r, c) ∈ ws.map Prod.fst ↔ r < m ∧ c < n) ∧
    (ws.map Prod.fst).Nodup := by
  unfold tinyMatmul at h
  by_cases hk : k % KN ≠ 0
  · rw [if_pos hk] at h
    simp at h
  · rw [if_neg hk] at h
    cases regs32 with
    | false =>
      rw [if_neg Bool.false_ne_true] at h
      by_cases h1 : m % 16 = 0 ∧ m / 16 ≥ nth
      · rw [if_pos h1] at h
        exact fpRow_coverage O lda ldb k KN 4 24 3 m n ws (by norm_num)
          (by norm_num) (by norm_num) hn (by omega) h
      · rw [if_neg h1] at h
        by_cases h2 : m % 8 = 0
        · rw [if_pos h2] at h
          exact fpRow_coverage O lda ldb k KN 2 24 3 m n ws (by norm_num)
            (by norm_num) (by norm_num) hn (by omega) h
        · rw [if_neg h2] at h
          by_cases h3 : m % 4 = 0
          · rw [if_pos h3] at h
            exact fpRow_coverage O lda ldb k KN 1 24 3 m n ws (by norm_num)
              (by norm_num) (by norm_num) hn (by omega) h
          · rw [if_neg h3] at h
            simp at h
    | true =>
      rw [if_pos rfl] at h
      by_cases h1 : m % 16 = 0 ∧ m / 16 ≥ nth
      · rw [if_pos h1] at h
        exact fpRow_coverage O lda ldb k KN 4 12 6 m n ws (by norm_num)
          (by norm_num) (by norm_num) hn (by omega) h
      · rw [if_neg h1] at h
        by_cases h2 : m % 8 = 0
        · rw [if_pos h2] at h
          exact fpRow_coverage O lda ldb k KN 2 12 6 m n ws (by norm_num)
            (by norm_num) (by norm_num) hn (by omega) h
        · rw [if_neg h2] at h
          by_cases h3 : m % 4 = 0
          · rw [if_pos h3] at h
            exact fpRow_coverage O lda ldb k KN 1 12 6 m n ws (by norm_num)
              (by norm_num) (by norm_num) hn (by omega) h
          · rw [if_neg h3] at h
            simp at h


theorem map_true_ne_false {α : Type} (o : Option α) (ws : α) :
    o.map (fun x => (true, x)) ≠ some (false, ws) := by
  cases o <;> simp

/-- Every path of `tinyBLAS::matmul` that returns `false` does so before
dispatching any tile: it performs no write. -/
theorem tinyMatmul_false_empty {V D F : Type} (O : FOps V D F)
    (regs32 : Bool) (lda ldb k KN nth m n : ℕ) (ws : List ((ℕ × ℕ) × F))
    (h : tinyMatmul O regs32 lda ldb k KN nth m n = some (false, ws)) :
    ws = [] := by
  unfold tinyMatmul at h
  by_cases hk : k % KN ≠ 0
  · rw [if_pos hk] at h
    simp only [Option.some.injEq, Prod.mk.injEq] at h
    exact h.2.symm
  · rw [if_neg hk] at h
    cases regs32 with
    | false =>
      rw [if_neg Bool.false_ne_true] at h
      by_cases h1 : m % 16 = 0 ∧ m / 16 ≥ nth
      · rw [if_pos h1] at h; exact absurd h (map_true_ne_false _ _)
      · rw [if_neg h1] at h
        by_cases h2 : m % 8 = 0
        · rw [if_pos h2] at h; exact absurd h (map_true_ne_false _ _)
        · rw [if_neg h2] at h
          by_cases h3 : m % 4 = 0
          · rw [if_pos h3] at h; exact absurd h (map_true_ne_false _ _)
          · rw [if_neg h3] at h
            simp only [Option.some.injEq, Prod.mk.injEq] at h
            exact h.2.symm
    | true =>
      rw [if_pos rfl] at h
      by_cases h1 : m % 16 = 0 ∧ m / 16 ≥ nth
      · rw [if_pos h1] at h; exact absurd h (map_true_ne_false _ _)
      · rw [if_neg h1] at h
        by_cases h2 : m % 8 = 0
        · rw [if_pos h2] at h; exact absurd h (map_true_ne_false _ _)
        · rw [if_neg h2] at h
          by_cases h3 : m % 4 = 0
          · rw [if_pos h3] at h; exact absurd h (map_true_ne_false _ _)
          · rw [if_neg h3] at h
            simp only [Option.some.injEq, Prod.mk.injEq] at h
            exact h.2.symm

/-- Coverage of the quantised `matmul` path: the cells written across all
workers are exactly the grid, each exactly once. -/
theorem qMatmul_true_coverage {F F8 : Type} (Q : QOps F F8) (M : QMats)
    (regs32 : Bool) (nth m n : ℕ) (ws : List ((ℕ × ℕ) × F)) (hnth : 1 ≤ nth)
    (h : (qMatmulWrites Q M regs32 nth m n).map (fun x => (true, x)) =
      some (true, ws)) :
    (∀ r c : ℕ, (r, c) ∈ ws.map Prod.fst ↔ r < m ∧ c < n) ∧
    (ws.map Prod.fst).Nodup := by
  have hsome := mnpackQ_isSome regs32 (m + n + 1) 0 m 0 n (by omega)
  obtain ⟨L, hL⟩ := Option.isSome_iff_exists.mp hsome
  unfold qMatmulWrites at h
  rw [hL] at h
  simp only [Option.map, Option.some.injEq, Prod.mk.injEq, true_and] at h
  subst h
  obtain ⟨hmem, hlen⟩ := mnpackQ_cells_cover Q M regs32 nth hnth
    (m + n + 1) 0 m 0 n L hL
  have hmem' : ∀ r c : ℕ,
      (r, c) ∈ (L.flatMap (qKernelWrites Q M nth)).map Prod.fst ↔
        r < m ∧ c < n := by
    intro r c
    constructor
    · intro hx
      have := (hmem r c).mp hx
      omega
    · intro hx
      exact (hmem r c).mpr (by omega)
  refine ⟨hmem', nodup_of_grid hmem' ?_⟩
  simpa using hlen

/-! ## C1, C2, C4: entry-point coverage, false-path purity, nth-invariance -/

/-- Concrete floating-point operations for witnesses. -/
def fopsEx : FOps ℕ ℕ ℕ := ⟨id, id, fun a b d => a * b + d, id, 0⟩

/-- Concrete quantised operations for witnesses. -/
def qopsEx : QOps ℕ ℕ :=
  ⟨id, fun a b => a * b, fun v => (v 0).natAbs, fun c u a => c + u + a, id, 0⟩

/-- Concrete operand description for witnesses. -/
def qmatsEx : QMats := ⟨fun _ => 0, fun _ _ => 0, fun _ => 0, fun _ _ => 0, 0, 0, 0⟩

/-- C1: whenever the entry point returns `true` — with all `nth` workers
`ith = 0, …, nth−1` invoked on the same arguments — the set of output cells
written across all workers is exactly `[0,m) × [0,n)`, and no cell is
written twice: this covers the floating-point two-level job scheme and the
quantised flat scheme with its recursive `mnpack` region split. -/
theorem entry_true_covers_grid {V D F F8 : Type} (O : FOps V D F)
    (Q : QOps F F8) (M : QMats) (nth m n : ℕ) (At Bt Ct : GType)
    (ws : List ((ℕ × ℕ) × F))
    (h : llamafile_sgemm O Q M nth m n At Bt Ct = some (true, ws)) :
    (∀ r c : ℕ, (r, c) ∈ ws.map Prod.fst ↔ r < m ∧ c < n) ∧
    (ws.map Prod.fst).Nodup := by
  unfold llamafile_sgemm at h
  by_cases h0 : nth = 0
  · rw [if_pos h0] at h
    simp at h
  rw [if_neg h0] at h
  by_cases h1 : n < 2
  · rw [if_pos h1] at h
    simp at h
  rw [if_neg h1] at h
  by_cases h2 : Ct ≠ GType.F32
  · rw [if_pos h2] at h
    simp at h
  rw [if_neg h2] at h
  have hn : 1 ≤ n := by omega
  have hnth : 1 ≤ nth := by omega
  cases At with
  | F32 =>
    by_cases hb : Bt ≠ GType.F32
    · rw [if_pos hb] at h
      simp at h
    · rw [if_neg hb] at h
      obtain ⟨_, hmem, hnd⟩ := tinyMatmul_true_coverage O false M.lda M.ldb
        M.k 8 nth m n ws hn h
      exact ⟨hmem, hnd⟩
  | BF16 =>
    by_cases hb : Bt = GType.BF16
    · rw [if_pos hb] at h
      obtain ⟨_, hmem, hnd⟩ := tinyMatmul_true_coverage O false M.lda M.ldb
        M.k 8 nth m n ws hn h
      exact ⟨hmem, hnd⟩
    · rw [if_neg hb] at h
      simp at h
  | F16 =>
    by_cases hb : Bt = GType.F16
    · rw [if_pos hb] at h
      obtain ⟨_, hmem, hnd⟩ := tinyMatmul_true_coverage O false M.lda M.ldb
        M.k 8 nth m n ws hn h
      exact ⟨hmem, hnd⟩
    · rw [if_neg hb] at h
      simp at h
  | Q8_0 =>
    by_cases hb : Bt ≠ GType.Q8_0
    · rw [if_pos hb] at h
      simp at h
    · rw [if_neg hb] at h
      exact qMatmul_true_coverage Q M false nth m n ws hnth h
  | Q4_0 =>
    by_cases hb : Bt ≠ GType.Q8_0
    · rw [if_pos hb] at h
      simp at h
    · rw [if_neg hb] at h
      exact qMatmul_true_coverage Q M false nth m n ws hnth h
  | Q5_0 =>
    by_cases hb : Bt ≠ GType.Q8_0
    · rw [if_pos hb] at h
      simp at h
    · rw [if_neg hb] at h
      exact qMatmul_true_coverage Q M false nth m n ws hnth h
  | IQ4_NL =>
    by_cases hb : Bt ≠ GType.Q8_0
    · rw [if_pos hb] at h
      simp at h
    · rw [if_neg hb] at h
      exact qMatmul_true_coverage Q M false nth m n ws hnth h
  | other =>
    simp at h

/-- Witness for C1: a `Q8_0 × Q8_0 → F32` call with `nth = 1`, `m = 1`,
`n = 2` returns `true` having written exactly the cells `(0,0)` and
`(0,1)`. -/
theorem entry_true_covers_grid_witness :
    (∀ r c : ℕ, (r, c) ∈ ([((0, 0), 0), ((0, 1), 0)] :
        List ((ℕ × ℕ) × ℕ)).map Prod.fst ↔ r < 1 ∧ c < 2) ∧
    (([((0, 0), 0), ((0, 1), 0)] :
        List ((ℕ × ℕ) × ℕ)).map Prod.fst).Nodup :=
  entry_true_covers_grid fopsEx qopsEx qmatsEx 1 1 2
    GType.Q8_0 GType.Q8_0 GType.F32 [((0, 0), 0), ((0, 1), 0)] (by rfl)

/-- C2: on every input on which the entry point returns `false`
(worker-count assertion passed, but unsupported dtype combination,
`Ctype ≠ f32`, `n < 2`, `k` not divisible by the lane count, or `m` not
divisible by 4 on the floating-point path), no element of C is modified. -/
theorem entry_false_preserves_C {V D F F8 : Type} (O : FOps V D F)
    (Q : QOps F F8) (M : QMats) (nth m n : ℕ) (At Bt Ct : GType)
    (ws : List ((ℕ × ℕ) × F)) (C0 : ℕ × ℕ → F)
    (h : llamafile_sgemm O Q M nth m n At Bt Ct = some (false, ws)) :
    applyWrites C0 ws = C0 := by
  have hws : ws = [] := by
    unfold llamafile_sgemm at h
    by_cases h0 : nth = 0
    · rw [if_pos h0] at h
      simp at h
    rw [if_neg h0] at h
    by_cases h1 : n < 2
    · rw [if_pos h1] at h
      simp only [Option.some.injEq, Prod.mk.injEq] at h
      exact h.2.symm
    rw [if_neg h1] at h
    by_cases h2 : Ct ≠ GType.F32
    · rw [if_pos h2] at h
      simp only [Option.some.injEq, Prod.mk.injEq] at h
      exact h.2.symm
    rw [if_neg h2] at h
    cases At with
    | F32 =>
      by_cases hb : Bt ≠ GType.F32
      · rw [if_pos hb] at h
        simp only [Option.some.injEq, Prod.mk.injEq] at h
        exact h.2.symm
      · rw [if_neg hb] at h
        exact tinyMatmul_false_empty O false M.lda M.ldb M.k 8 nth m n ws h
    | BF16 =>
      by_cases hb : Bt = GType.BF16
      · rw [if_pos hb] at h
        exact tinyMatmul_false_empty O false M.lda M.ldb M.k 8 nth m n ws h
      · rw [if_neg hb] at h
        simp only [Option.some.injEq, Prod.mk.injEq] at h
        exact h.2.symm
    | F16 =>
      by_cases hb : Bt = GType.F16
      · rw [if_pos hb] at h
        exact tinyMatmul_false_empty O false M.lda M.ldb M.k 8 nth m n ws h
      · rw [if_neg hb] at h
        simp only [Option.some.injEq, Prod.mk.injEq] at h
        exact h.2.symm
    | Q8_0 =>
      by_cases hb : Bt ≠ GType.Q8_0
      · rw [if_pos hb] at h
        simp only [Option.some.injEq, Prod.mk.injEq] at h
        exact h.2.symm
      · rw [if_neg hb] at h
        exact absurd h (map_true_ne_false _ _)
    | Q4_0 =>
      by_cases hb : Bt ≠ GType.Q8_0
      · rw [if_pos hb] at h
        simp only [Option.some.injEq, Prod.mk.injEq] at h
        exact h.2.symm
      · rw [if_neg hb] at h
        exact absurd h (map_true_ne_false _ _)
    | Q5_0 =>
      by_cases hb : Bt ≠ GType.Q8_0
      · rw [if_pos hb] at h
        simp only [Option.some.injEq, Prod.mk.injEq] at h
        exact h.2.symm
      · rw [if_neg hb] at h
        exact absurd h (map_true_ne_false _ _)
    | IQ4_NL =>
      by_cases hb : Bt ≠ GType.Q8_0
      · rw [if_pos hb] at h
        simp only [Option.some.injEq, Prod.mk.injEq] at h
        exact h.2.symm
      · rw [if_neg hb] at h
        exact absurd h (map_true_ne_false _ _)
    | other =>
      simp only [Option.some.injEq, Prod.mk.injEq] at h
      exact h.2.symm
  subst hws
  rfl

/-- Witness for C2 at `n = 1 < 2`. -/
theorem entry_false_preserves_C_witness :
    applyWrites (fun _ => (7 : ℕ)) ([] : List ((ℕ × ℕ) × ℕ)) =
      (fun _ => (7 : ℕ)) :=
  entry_false_preserves_C fopsEx qopsEx qmatsEx 1 4 1
    GType.F32 GType.F32 GType.F32 [] (fun _ => 7) (by rfl)

/-- C4: for fixed operands and shapes on a supported floating-point path,
running the engine with any two worker counts from `{1, 2, 4, 8, 16}` (each
run invoking all of its workers) produces identical contents of C, even
though the `m/16 ≥ nth` tile-selection branch changes the `BM` block
multiplier with `nth`: every write carries the per-cell reduction value,
which is independent of the tile shape and of `nth`. -/
theorem matmul_nth_invariant {V D F : Type} (O : FOps V D F)
    (regs32 : Bool) (lda ldb k KN nth nth' m n : ℕ) (C0 : ℕ × ℕ → F)
    (ws ws' : List ((ℕ × ℕ) × F))
    (hnth : nth ∈ ([1, 2, 4, 8, 16] : List ℕ))
    (hnth' : nth' ∈ ([1, 2, 4, 8, 16] : List ℕ))
    (hn : 1 ≤ n)
    (h : tinyMatmul O regs32 lda ldb k KN nth m n = some (true, ws))
    (h' : tinyMatmul O regs32 lda ldb k KN nth' m n = some (true, ws')) :
    applyWrites C0 ws = applyWrites C0 ws' := by
  obtain ⟨hv, hmem, _⟩ := tinyMatmul_true_coverage O regs32 lda ldb k KN
    nth m n ws hn h
  obtain ⟨hv', hmem', _⟩ := tinyMatmul_true_coverage O regs32 lda ldb k KN
    nth' m n ws' hn h'
  rw [applyWrites_canonical
        (fun cell => fpCellVal O lda ldb k KN cell.1 cell.2) ws C0
        (fun w hw => hv w hw),
      applyWrites_canonical
        (fun cell => fpCellVal O lda ldb k KN cell.1 cell.2) ws' C0
        (fun w hw => hv' w hw)]
  funext cell
  rcases cell with ⟨r, c⟩
  by_cases hg : r < m ∧ c < n
  · rw [if_pos ((hmem r c).mpr hg), if_pos ((hmem' r c).mpr hg)]
  · rw [if_neg (fun hc => hg ((hmem r c).mp hc)),
      if_neg (fun hc => hg ((hmem' r c).mp hc))]

/-- Witness for C4: `m = 16`, `n = 2`, `k = 0`; `nth = 1` selects the
`BM = 4` row, `nth' = 2` fails `m/16 ≥ nth` and selects the `BM = 2` row;
the final C agrees. -/
theorem matmul_nth_invariant_witness :
    applyWrites (fun _ => (3 : ℕ))
        (fpGemmWrites fopsEx 0 0 0 8 4 2 4 24 16 2) =
      applyWrites (fun _ => (3 : ℕ))
        (fpGemmWrites fopsEx 0 0 0 8 4 2 2 24 16 2) :=
  matmul_nth_invariant fopsEx false 0 0 0 8 1 2 16 2 (fun _ => 3)
    (fpGemmWrites fopsEx 0 0 0 8 4 2 4 24 16 2)
    (fpGemmWrites fopsEx 0 0 0 8 4 2 2 24 16 2)
    (by decide) (by decide) (by decide) (by rfl) (by rfl)

end Sgemm
